import Mathlib

/-!
Verification of the SOLID static-analysis core of the `semgrep-offline`
extension (`src/extension.ts`).

The TypeScript source is shallowly embedded: each analyzer and parser is
translated into an executable Lean function.  JavaScript `Set` objects are
represented as duplicate-free lists in insertion order (`setAdd` inserts only
when absent), the adjacency `Map` of `calculateLCOM4` is represented by its
lookup function over the list of inserted edge pairs, JavaScript numbers that
only ever hold small multiples of 0.5 are represented by `Rat` (such values
are exact in IEEE doubles, so no rounding is lost), and the handful of regular
expressions are translated into character-list matchers with the same
backtracking behaviour (`\w` is `[A-Za-z0-9_]`, `\s` is whitespace).
-/

namespace SemgrepOffline

/-- `\w` character class of the JavaScript regexes: `[A-Za-z0-9_]`. -/
def wordChar (c : Char) : Bool := c.isAlphanum || c == '_'

/-- `\s` character class (whitespace). -/
def wsChar (c : Char) : Bool := c.isWhitespace

/-- Match a literal string prefix, returning the rest of the input. -/
def dropLit : List Char → List Char → Option (List Char)
  | [], cs => some cs
  | p :: ps, c :: cs => if c = p then dropLit ps cs else none
  | _ :: _, [] => none

/-- Match `\s+` (one or more whitespace characters), greedily. -/
def dropWs1 : List Char → Option (List Char)
  | c :: rest => if wsChar c then some (rest.dropWhile wsChar) else none
  | [] => none

/-- Match `(\w+)` greedily, returning the captured word and the rest. -/
def takeWord1 (cs : List Char) : Option (String × List Char) :=
  match cs with
  | c :: _ =>
    if wordChar c then some (⟨cs.takeWhile wordChar⟩, cs.dropWhile wordChar)
    else none
  | [] => none

/-- JavaScript `String.prototype.includes`: substring test. -/
def strIncludes (line pat : String) : Bool := decide (pat.data <:+: line.data)

/-- JavaScript `String.prototype.trimStart` (drop leading whitespace),
defined on the character list so that the kernel can evaluate it. -/
def jsTrimStart (s : String) : String := ⟨s.data.dropWhile wsChar⟩

/-- JavaScript `String.prototype.trim` (drop whitespace at both ends). -/
def jsTrim (s : String) : String :=
  ⟨((s.data.dropWhile wsChar).reverse.dropWhile wsChar).reverse⟩

/-- JavaScript `String.prototype.startsWith`. -/
def jsStartsWith (s pre : String) : Bool := pre.data.isPrefixOf s.data

/-- JavaScript `String.prototype.endsWith`. -/
def jsEndsWith (s suf : String) : Bool := suf.data.isSuffixOf s.data

/-- JavaScript `text.split('\n')`, by structural recursion on the character
list (the core `String.splitOn` is equivalent but does not reduce in the
kernel). -/
def splitLinesAux : List Char → List Char → List String
  | acc, [] => [⟨acc.reverse⟩]
  | acc, c :: rest =>
    if c = '\n' then (⟨acc.reverse⟩ : String) :: splitLinesAux [] rest
    else splitLinesAux (c :: acc) rest

/-- `text.split('\n')`. -/
def splitLines (s : String) : List String := splitLinesAux [] s.data

/-- JavaScript `Set.prototype.add`: insert at the end if not yet present. -/
def setAdd (l : List String) (x : String) : List String :=
  if l.contains x then l else l ++ [x]

/-- `MethodInfo` of `extension.ts`: name, 0-based line range, and the
`usedVariables` / `calledMethods` sets filled by the self-reference scan. -/
structure MethodInfo where
  name : String
  startLine : Nat
  endLine : Nat
  usedVariables : List String
  calledMethods : List String
deriving Repr, DecidableEq

/-- `ClassInfo` of `extension.ts`. -/
structure ClassInfo where
  name : String
  startLine : Nat
  endLine : Nat
  methods : List MethodInfo
  instanceVariables : List String
deriving Repr, DecidableEq

/-- Regex `^class\s+(\w+)` of `parsePythonClasses`, applied to the trimmed
line; returns the captured class name. -/
def matchPyClass (trimmed : String) : Option String := do
  let r ← dropLit "class".data trimmed.data
  let r ← dropWs1 r
  let (w, _) ← takeWord1 r
  pure w

/-- Regex `^def\s+(\w+)\s*\(` of `parsePythonClasses`. -/
def matchPyMethod (trimmed : String) : Option String := do
  let r ← dropLit "def".data trimmed.data
  let r ← dropWs1 r
  let (w, r) ← takeWord1 r
  match r.dropWhile wsChar with
  | '(' :: _ => pure w
  | _ => none

/-- `class\s+(\w+)` tail shared by the TypeScript class regex. -/
def matchTsClassCore (cs : List Char) : Option String := do
  let r ← dropLit "class".data cs
  let r ← dropWs1 r
  let (w, _) ← takeWord1 r
  pure w

/-- Regex `^(?:export\s+)?class\s+(\w+)` of `parseTypeScriptClasses`; the
optional `export\s+` branch is tried first, with fallback (backtracking). -/
def matchTsClass (trimmed : String) : Option String :=
  match (do
      let r ← dropLit "export".data trimmed.data
      let r ← dropWs1 r
      matchTsClassCore r) with
  | some w => some w
  | none => matchTsClassCore trimmed.data

/-- `(\w+)\s*\(` tail of the TypeScript method regex. -/
def matchTsMethodCore (cs : List Char) : Option String := do
  let (w, r) ← takeWord1 cs
  match r.dropWhile wsChar with
  | '(' :: _ => pure w
  | _ => none

/-- `(?:async\s+)?(\w+)\s*\(` with backtracking over the optional branch. -/
def matchTsMethodAsync (cs : List Char) : Option String :=
  match (do
      let r ← dropLit "async".data cs
      let r ← dropWs1 r
      matchTsMethodCore r) with
  | some w => some w
  | none => matchTsMethodCore cs

/-- One access-modifier branch `kw\s+` followed by the async/core tail. -/
def matchTsMethodMod (kw : String) (cs : List Char) : Option String := do
  let r ← dropLit kw.data cs
  let r ← dropWs1 r
  matchTsMethodAsync r

/-- Regex `^(?:public\s+|private\s+|protected\s+)?(?:async\s+)?(\w+)\s*\(` of
`parseTypeScriptClasses`, with JavaScript's ordered-alternation backtracking. -/
def matchTsMethod (trimmed : String) : Option String :=
  match matchTsMethodMod "public" trimmed.data with
  | some w => some w
  | none =>
    match matchTsMethodMod "private" trimmed.data with
    | some w => some w
    | none =>
      match matchTsMethodMod "protected" trimmed.data with
      | some w => some w
      | none => matchTsMethodAsync trimmed.data

/-- `matchAll` of `/qual\.(\w+)/g`: scan left to right, at each position try
to match the qualifier, a dot and a maximal word; on success record the word
and resume after the match, otherwise advance one character.  The `Nat`
argument is fuel, instantiated with the length of the scanned text (each step
consumes at least one character, so that fuel never runs out). -/
def scanRefs (qual : String) : Nat → List Char → List String
  | 0, _ => []
  | _, [] => []
  | fuel + 1, c :: rest =>
    match (do
        let r ← dropLit qual.data (c :: rest)
        let r ← (match r with | '.' :: r' => some r' | _ => none)
        takeWord1 r) with
    | some (w, r') => w :: scanRefs qual fuel r'
    | none => scanRefs qual fuel rest

/-- One `self.(\w+)` match processed by the body-line scan of
`parsePythonClasses` (lines 701-712 of the source): a name that both starts
and ends with `_` is skipped; otherwise it is classified as a call when
`self.name(` or `self.name (` occurs anywhere in the line, and else added to
`usedVariables` and `instanceVariables`. -/
def pyRefStep (line : String) (mc : MethodInfo × ClassInfo) (varName : String) :
    MethodInfo × ClassInfo :=
  if !(jsStartsWith varName "_") || !(jsEndsWith varName "_") then
    if strIncludes line ("self." ++ varName ++ "(")
        || strIncludes line ("self." ++ varName ++ " (") then
      ({ mc.1 with calledMethods := setAdd mc.1.calledMethods varName }, mc.2)
    else
      ({ mc.1 with usedVariables := setAdd mc.1.usedVariables varName },
       { mc.2 with instanceVariables := setAdd mc.2.instanceVariables varName })
  else mc

/-- Body-line scan of `parsePythonClasses`: process every `self.(\w+)` match
of the line in order. -/
def pyScanLine (line : String) (m : MethodInfo) (c : ClassInfo) :
    MethodInfo × ClassInfo :=
  (scanRefs "self" line.data.length line.data).foldl (pyRefStep line) (m, c)

/-- One `this.(\w+)` match processed by the body-line scan of
`parseTypeScriptClasses` (lines 775-784): like the Python step but with
qualifier `this` and no underscore filter. -/
def tsRefStep (line : String) (mc : MethodInfo × ClassInfo) (varName : String) :
    MethodInfo × ClassInfo :=
  if strIncludes line ("this." ++ varName ++ "(")
      || strIncludes line ("this." ++ varName ++ " (") then
    ({ mc.1 with calledMethods := setAdd mc.1.calledMethods varName }, mc.2)
  else
    ({ mc.1 with usedVariables := setAdd mc.1.usedVariables varName },
     { mc.2 with instanceVariables := setAdd mc.2.instanceVariables varName })

/-- Body-line scan of `parseTypeScriptClasses`. -/
def tsScanLine (line : String) (m : MethodInfo) (c : ClassInfo) :
    MethodInfo × ClassInfo :=
  (scanRefs "this" line.data.length line.data).foldl (tsRefStep line) (m, c)

/-- Mutable state of the `parsePythonClasses` loop. -/
structure PyState where
  classes : List ClassInfo
  currentClass : Option ClassInfo
  currentMethod : Option MethodInfo
  classIndent : Nat
  methodIndent : Nat
deriving Repr

/-- Push the open method (if any) into the open class - the
`if (currentMethod) currentClass.methods.push(currentMethod)` idiom. -/
def flushMethod (c : ClassInfo) : Option MethodInfo → ClassInfo
  | some m => { c with methods := c.methods ++ [m] }
  | none => c

/-- One iteration of the `parsePythonClasses` loop for line `i`. -/
def pyStep (i : Nat) (line : String) (s : PyState) : PyState :=
  let trimmed := jsTrimStart line
  let indent := line.length - trimmed.length
  match matchPyClass trimmed with
  | some cname =>
    let classes :=
      match s.currentClass with
      | some c => s.classes ++ [{ flushMethod c s.currentMethod with endLine := i - 1 }]
      | none => s.classes
    { classes := classes
      currentClass := some ⟨cname, i, i, [], []⟩
      currentMethod := none
      classIndent := indent
      methodIndent := s.methodIndent }
  | none =>
    match s.currentClass with
    | none => s
    | some c =>
      if indent ≤ s.classIndent ∧ trimmed.length > 0 then
        { classes := s.classes ++ [{ flushMethod c s.currentMethod with endLine := i - 1 }]
          currentClass := none
          currentMethod := none
          classIndent := s.classIndent
          methodIndent := s.methodIndent }
      else
        match matchPyMethod trimmed with
        | some mname =>
          { s with
            currentClass := some (flushMethod c s.currentMethod)
            currentMethod := some ⟨mname, i, i, [], []⟩
            methodIndent := indent }
        | none =>
          match s.currentMethod with
          | some m =>
            if indent > s.methodIndent then
              let mc := pyScanLine line { m with endLine := i } c
              { s with currentClass := some mc.2, currentMethod := some mc.1 }
            else s
          | none => s

/-- Run the Python parser loop from line index `i`. -/
def pyRun (i : Nat) : List String → PyState → PyState
  | [], s => s
  | l :: ls, s => pyRun (i + 1) ls (pyStep i l s)

/-- `parsePythonClasses`: loop over all lines, then force-close the open
class (and method) at end of input with `endLine = lines.length - 1`. -/
def parsePythonClasses (lines : List String) : List ClassInfo :=
  let s := pyRun 0 lines ⟨[], none, none, 0, 0⟩
  match s.currentClass with
  | some c =>
    s.classes ++ [{ flushMethod c s.currentMethod with endLine := lines.length - 1 }]
  | none => s.classes

/-- Mutable state of the `parseTypeScriptClasses` loop.  `braceCount` is an
integer because stray close braces drive it negative in JavaScript. -/
structure TsState where
  classes : List ClassInfo
  currentClass : Option ClassInfo
  currentMethod : Option MethodInfo
  braceCount : Int
  classStartBrace : Int
  methodStartBrace : Int
deriving Repr

/-- Number of occurrences of a character in a line. -/
def countChar (c : Char) (line : String) : Nat := (line.data.filter (· == c)).length

/-- The method-open check of `parseTypeScriptClasses` (lines 757-770 of the
source): a method-regex match (other than `constructor`) at brace depth
`classStartBrace + 1` pushes any open method and opens a new one.  Returns
the updated class, open method and `methodStartBrace`. -/
def tsMethodOpenStep (i : Nat) (trimmed : String) (bc classStartBrace msb : Int)
    (c0 : ClassInfo) (cur : Option MethodInfo) :
    ClassInfo × Option MethodInfo × Int :=
  match matchTsMethod trimmed with
  | some mname =>
    if ¬ jsStartsWith trimmed "constructor" ∧ bc = classStartBrace + 1 then
      (flushMethod c0 cur, some (⟨mname, i, i, [], []⟩ : MethodInfo), bc)
    else (c0, cur, msb)
  | none => (c0, cur, msb)

/-- The body-line check (lines 772-785): at depth above `methodStartBrace`
the open method's `endLine` is bumped and the line scanned for
`this.`-references. -/
def tsBodyStep (i : Nat) (line : String) (bc msb : Int) (c1 : ClassInfo)
    (cur : Option MethodInfo) : ClassInfo × Option MethodInfo :=
  match cur with
  | some m =>
    if bc > msb then
      let mc := tsScanLine line { m with endLine := i } c1
      (mc.2, some mc.1)
    else (c1, some m)
  | none => (c1, none)

/-- The method-close check (lines 787-790): when the depth has fallen back to
`methodStartBrace` on a line with a closing brace, the method is pushed. -/
def tsMethodCloseStep (bc msb : Int) (closes : Nat) (c2 : ClassInfo)
    (cur : Option MethodInfo) : ClassInfo × Option MethodInfo :=
  match cur with
  | some m =>
    if bc ≤ msb ∧ closes > 0 then
      ({ c2 with methods := c2.methods ++ [m] }, none)
    else (c2, some m)
  | none => (c2, none)

/-- The body of one `parseTypeScriptClasses` iteration once a class is open:
brace count update, method open / body scan / method close, class close. -/
def tsStepTail (i : Nat) (line : String) (s1 : TsState) (c0 : ClassInfo) : TsState :=
  let trimmed := jsTrim line
  let closes : Nat := countChar '}' line
  let bc : Int := s1.braceCount + (countChar '{' line : Int) - (closes : Int)
  let step1 := tsMethodOpenStep i trimmed bc s1.classStartBrace s1.methodStartBrace
    c0 s1.currentMethod
  let msb := step1.2.2
  let step2 := tsBodyStep i line bc msb step1.1 step1.2.1
  let step3 := tsMethodCloseStep bc msb closes step2.1 step2.2
  if bc = 0 then
    { classes := s1.classes ++ [{ step3.1 with endLine := i }]
      currentClass := none
      currentMethod := step3.2
      braceCount := bc
      classStartBrace := s1.classStartBrace
      methodStartBrace := msb }
  else
    { classes := s1.classes
      currentClass := some step3.1
      currentMethod := step3.2
      braceCount := bc
      classStartBrace := s1.classStartBrace
      methodStartBrace := msb }

/-- One iteration of the `parseTypeScriptClasses` loop for line `i`,
mirroring the source order: class check at the pre-update brace count, brace
count update, then method open / body scan / method close / class close. -/
def tsStep (i : Nat) (line : String) (s : TsState) : TsState :=
  let trimmed := jsTrim line
  let s1 :=
    match matchTsClass trimmed with
    | some cname =>
      if s.braceCount = 0 then
        { s with currentClass := some (⟨cname, i, i, [], []⟩ : ClassInfo)
                 classStartBrace := s.braceCount }
      else s
    | none => s
  match s1.currentClass with
  | none =>
    { s1 with braceCount :=
        s1.braceCount + (countChar '{' line : Int) - (countChar '}' line : Int) }
  | some c0 => tsStepTail i line s1 c0

/-- Run the TypeScript parser loop from line index `i`. -/
def tsRun (i : Nat) : List String → TsState → TsState
  | [], s => s
  | l :: ls, s => tsRun (i + 1) ls (tsStep i l s)

/-- `parseTypeScriptClasses`: loop over all lines.  Note that, unlike the
Python parser, there is no end-of-input flush: a class still open when the
input ends is discarded. -/
def parseTypeScriptClasses (lines : List String) : List ClassInfo :=
  (tsRun 0 lines ⟨[], none, none, 0, 0, 0⟩).classes

/-- `parseClasses`: dispatch on the declared language identifier; any other
identifier yields the initial empty list. -/
def parseClasses (text : String) (languageId : String) : List ClassInfo :=
  let lines := splitLines text
  if languageId = "python" then parsePythonClasses lines
  else if languageId = "typescript" ∨ languageId = "javascript"
      ∨ languageId = "typescriptreact" ∨ languageId = "javascriptreact" then
    parseTypeScriptClasses lines
  else []

/-! ## Cohesion analyzer (SRP / LCOM4) -/

/-- `LCOM4Result` of `extension.ts`. -/
structure LCOM4Result where
  className : String
  lcom4Value : Nat
  connectedComponents : List (List String)
  suggestion : String
deriving Repr, DecidableEq

/-- The method filter of `calculateLCOM4`: magic (double-underscore) methods
are excluded, except the initializer `__init__`. -/
def qualifyingMethods (classInfo : ClassInfo) : List MethodInfo :=
  classInfo.methods.filter (fun m => !(jsStartsWith m.name "__") || m.name == "__init__")

/-- The edge test of `calculateLCOM4` for one method pair: a shared
`usedVariables` entry, or either method naming the other in `calledMethods`. -/
def lcomEdge (m1 m2 : MethodInfo) : Bool :=
  m1.usedVariables.any (fun v => m2.usedVariables.contains v)
    || m1.calledMethods.contains m2.name
    || m2.calledMethods.contains m1.name

/-- The `i < j` double loop of `calculateLCOM4` that fills the adjacency map:
for every ordered pair with an edge, both directed pairs are inserted. -/
def edgePairs : List MethodInfo → List (String × String)
  | [] => []
  | m1 :: rest =>
    (rest.filter (fun m2 => lcomEdge m1 m2)).flatMap
        (fun m2 => [(m1.name, m2.name), (m2.name, m1.name)])
      ++ edgePairs rest

/-- The adjacency `Map` represented by its lookup: neighbours of `x` are the
targets of the inserted pairs with source `x` (and `[]` off the map, matching
`adjacency.get(current) || []`). -/
def adjacencyOf (methods : List MethodInfo) (x : String) : List String :=
  ((edgePairs methods).filter (fun p => p.1 == x)).map (fun p => p.2)

/-- The inner `while (stack.length > 0)` traversal of `calculateLCOM4`.  The
stack is kept top-first (JavaScript pushes then pops at the array end, hence
the `.reverse` on the freshly pushed unvisited neighbours).  The `Nat`
argument is fuel standing for the loop guard; `calculateLCOM4` passes
`lcomFuel`, which is large enough for the stack to empty (proved below). -/
def dfsLoop (adj : String → List String) :
    Nat → List String → List String → List String → List String × List String
  | 0, _, visited, comp => (visited, comp)
  | _ + 1, [], visited, comp => (visited, comp)
  | fuel + 1, current :: stack, visited, comp =>
    if visited.contains current then dfsLoop adj fuel stack visited comp
    else
      let visited2 := visited ++ [current]
      let pushes := ((adj current).filter (fun n => !(visited2.contains n))).reverse
      dfsLoop adj fuel (pushes ++ stack) visited2 (comp ++ [current])

/-- The outer `for (const method of methods)` loop of `calculateLCOM4`:
start a traversal at every not-yet-visited method, collecting components. -/
def componentsLoop (adj : String → List String) (fuel : Nat) :
    List MethodInfo → List String → List (List String) → List String × List (List String)
  | [], visited, comps => (visited, comps)
  | m :: rest, visited, comps =>
    if visited.contains m.name then componentsLoop adj fuel rest visited comps
    else
      let r := dfsLoop adj fuel [m.name] visited []
      componentsLoop adj fuel rest r.1 (comps ++ [r.2])

/-- Fuel sufficient for `dfsLoop` to drain its stack (see `dfsLoop_closed`). -/
def lcomFuel (methods : List MethodInfo) : Nat :=
  1 + methods.length * ((edgePairs methods).length + 1)

/-- `generateLCOM4Suggestion` of `extension.ts`. -/
def generateLCOM4Suggestion (className : String) (components : List (List String)) :
    String :=
  if components.length ≤ 1 then "Class appears to be cohesive."
  else
    let componentDescriptions :=
      String.intercalate "; "
        (components.enum.map
          (fun p => "Group " ++ toString (p.1 + 1) ++ ": " ++ String.intercalate ", " p.2))
    "Consider splitting into " ++ toString components.length
      ++ " classes. Method groups: " ++ componentDescriptions

/-- `calculateLCOM4` of `extension.ts`: filter methods, short-circuit for at
most one method, otherwise count connected components of the shared-state /
call graph. -/
def calculateLCOM4 (classInfo : ClassInfo) : LCOM4Result :=
  let methods := qualifyingMethods classInfo
  if methods.length ≤ 1 then
    { className := classInfo.name
      lcom4Value := 1
      connectedComponents := [methods.map (fun m => m.name)]
      suggestion := "Class has 0 or 1 method, LCOM4 is trivially 1." }
  else
    let adj := adjacencyOf methods
    let r := componentsLoop adj (lcomFuel methods) methods [] []
    { className := classInfo.name
      lcom4Value := r.2.length
      connectedComponents := r.2
      suggestion := generateLCOM4Suggestion classInfo.name r.2 }

/-! ## Type-discrimination analyzer (OCP): score aggregation -/

/-- The `type` tags of `OCPViolation` in `extension.ts`. -/
inductive OCPType where
  | instanceof
  | type_equality
  | typeof
  | type_field
deriving Repr, DecidableEq

/-- `OCPViolation` of `extension.ts`. -/
structure OCPViolation where
  line : Nat
  type : OCPType
  code : String
deriving Repr, DecidableEq

/-- The `switch (v.type)` body of `calculateOCPScore`: add the weight of one
violation to the running score. -/
def ocpStep (score : Rat) (v : OCPViolation) : Rat :=
  match v.type with
  | .instanceof => score + 2
  | .type_equality => score + 2
  | .typeof => score + 1
  | .type_field => score + (1.5 : Rat)

/-- `calculateOCPScore`: fold the per-occurrence weights 2.0 / 2.0 / 1.0 /
1.5 over the detected violations.  These weights and their sums are exact in
IEEE doubles, so `Rat` models the JavaScript number without loss. -/
def calculateOCPScore (violations : List OCPViolation) : Rat :=
  violations.foldl ocpStep 0

/-- Number of violations of one kind, for stating the additivity claim. -/
def countOCPType (violations : List OCPViolation) (t : OCPType) : Nat :=
  (violations.filter (fun v => v.type == t)).length

/-- `calculateTCD`: weighted-count of type-check-family matches over lines. -/
def calculateTCD (violations : List OCPViolation) (totalLines : Nat) : Rat :=
  let typeChecks := (violations.filter (fun v =>
    v.type == OCPType.instanceof || v.type == OCPType.type_equality
      || v.type == OCPType.typeof)).length
  if totalLines > 0 then (typeChecks : Rat) / (totalLines : Rat) else 0

/-- `calculateTFSC`: count of type-field matches. -/
def calculateTFSC (violations : List OCPViolation) : Nat :=
  (violations.filter (fun v => v.type == OCPType.type_field)).length

/-! ## Interface-shape analyzer (ISP): stub-implementation reporting -/

/-- A stub-method record of `ImplementationInfo` in `extension.ts`. -/
structure StubMethodInfo where
  name : String
  line : Nat
  code : String
deriving Repr, DecidableEq

/-- `ImplementationInfo` of `extension.ts`. -/
structure ImplementationInfo where
  name : String
  startLine : Nat
  totalMethods : Nat
  emptyMethods : List StubMethodInfo
  notImplementedMethods : List StubMethodInfo
deriving Repr, DecidableEq

/-- Stub count of an implementation, as computed in
`checkInterfaceSegregation`. -/
def stubMethodCount (impl : ImplementationInfo) : Nat :=
  impl.emptyMethods.length + impl.notImplementedMethods.length

/-- `sir = totalMethods > 0 ? stubMethods / totalMethods : 0` of
`checkInterfaceSegregation`. -/
def stubSir (impl : ImplementationInfo) : Rat :=
  if impl.totalMethods > 0 then
    (stubMethodCount impl : Rat) / (impl.totalMethods : Rat)
  else 0

/-- The reporting decision of the stub-implementation loop in
`checkInterfaceSegregation`: an implementation is reported when it has at
least one stub method and `sir >= sirThreshold || stubMethods >= 2`. -/
def ispStubFlagged (impl : ImplementationInfo) (sirThreshold : Rat) : Bool :=
  if impl.emptyMethods.length > 0 || impl.notImplementedMethods.length > 0 then
    decide (sirThreshold ≤ stubSir impl) || decide (2 ≤ stubMethodCount impl)
  else false

/-- `ispScore = stubMethods * 1.5` for a reported stub implementation. -/
def ispStubScore (impl : ImplementationInfo) : Rat :=
  (stubMethodCount impl : Rat) * (1.5 : Rat)

/-! ## Dependency-origin analyzer (DIP) -/

/-- The TypeScript-family language test used throughout `extension.ts`. -/
def tsLanguage (languageId : String) : Bool :=
  languageId == "typescript" || languageId == "javascript"
    || languageId == "typescriptreact" || languageId == "javascriptreact"

/-- Match `([A-Z][a-zA-Z0-9_]*)\s*\(` at the head of the input; on success
return the captured name and the rest after the consumed `(`. -/
def matchCapCall (cs : List Char) : Option (String × List Char) :=
  match cs with
  | c :: rest =>
    if c.isUpper then
      let name : String := ⟨c :: rest.takeWhile wordChar⟩
      match (rest.dropWhile wordChar).dropWhile wsChar with
      | '(' :: r' => some (name, r')
      | _ => none
    else none
  | [] => none

/-- `matchAll` scan for `matchCapCall` (fuel = input length). -/
def scanCapCalls : Nat → List Char → List String
  | 0, _ => []
  | _, [] => []
  | fuel + 1, c :: rest =>
    match matchCapCall (c :: rest) with
    | some (name, r') => name :: scanCapCalls fuel r'
    | none => scanCapCalls fuel rest

/-- `detectPythonInstantiations`: every `([A-Z][a-zA-Z0-9_]*)\s*\(` match on
the line whose name is not preceded anywhere on the line by `def ` or
`class `. -/
def detectPythonInstantiations (line : String) : List String :=
  (scanCapCalls line.data.length line.data).filter
    (fun name => !(strIncludes line ("def " ++ name))
      && !(strIncludes line ("class " ++ name)))

/-- Match `new\s+([A-Z][a-zA-Z0-9_]*)\s*\(` at the head of the input. -/
def matchNewCall (cs : List Char) : Option (String × List Char) :=
  match dropLit "new".data cs with
  | none => none
  | some r0 =>
    match dropWs1 r0 with
    | none => none
    | some r1 => matchCapCall r1

/-- `matchAll` scan for `matchNewCall` (fuel = input length). -/
def scanNewCalls : Nat → List Char → List String
  | 0, _ => []
  | _, [] => []
  | fuel + 1, c :: rest =>
    match matchNewCall (c :: rest) with
    | some (name, r') => name :: scanNewCalls fuel r'
    | none => scanNewCalls fuel rest

/-- `detectTypeScriptInstantiations`. -/
def detectTypeScriptInstantiations (line : String) : List String :=
  scanNewCalls line.data.length line.data

/-- The Python allow-list of `isExcludedClass`. -/
def pythonExclusions : List String :=
  ["Exception", "Error", "ValueError", "TypeError", "RuntimeError", "KeyError",
   "AttributeError", "IndexError", "StopIteration", "Dict", "List", "Set",
   "Tuple", "Optional", "Union", "Any", "Callable", "Type", "Literal"]

/-- The TypeScript allow-list of `isExcludedClass`. -/
def tsExclusions : List String :=
  ["Error", "TypeError", "RangeError", "SyntaxError", "Array", "Object", "Map",
   "Set", "WeakMap", "WeakSet", "Promise", "Date", "RegExp", "URL",
   "URLSearchParams", "FormData", "Headers", "Request", "Response", "Event",
   "CustomEvent", "EventEmitter"]

/-- `isExcludedClass`. -/
def isExcludedClass (className : String) (languageId : String) : Bool :=
  if languageId = "python" then pythonExclusions.contains className
  else tsExclusions.contains className

/-- `ClassWithConstructor` of `extension.ts`: a `ClassInfo` extended with the
constructor span (`-1` sentinel when absent) and parameter names. -/
structure ClassWithConstructor where
  name : String
  startLine : Nat
  endLine : Nat
  methods : List MethodInfo
  instanceVariables : List String
  constructorStartLine : Int
  constructorEndLine : Int
  constructorParams : List String
deriving Repr, DecidableEq

/-- The `for (let i = start; i <= end; i++) lines[i]` loop of `analyzeDIP`,
as the list of visited lines (out-of-range indices never occur for the
in-bounds ranges the analyzer is fed; they are read as `""` here). -/
def lineRangeSlice (lines : List String) (s e : Int) : List String :=
  ((List.range lines.length).filter
      (fun (i : Nat) => decide (s ≤ (i : Int) ∧ (i : Int) ≤ e))).map
    (fun (i : Nat) => lines.getD i "")

/-- The constructor-body scan of `analyzeDIP`: the non-excluded instantiation
names found on the constructor's lines, in scan order. -/
def dipConstructorNames (classInfo : ClassWithConstructor) (lines : List String)
    (languageId : String) : List String :=
  if languageId = "python" then
    if 0 ≤ classInfo.constructorStartLine then
      (lineRangeSlice lines classInfo.constructorStartLine
          classInfo.constructorEndLine).flatMap
        (fun line => (detectPythonInstantiations line).filter
          (fun inst => !(isExcludedClass inst languageId)))
    else []
  else if tsLanguage languageId then
    if 0 ≤ classInfo.constructorStartLine then
      (lineRangeSlice lines classInfo.constructorStartLine
          classInfo.constructorEndLine).flatMap
        (fun line => (detectTypeScriptInstantiations line).filter
          (fun inst => !(isExcludedClass inst languageId)))
    else []
  else []

/-- The method-body scan of `analyzeDIP`: the non-excluded instantiation
names found on the lines of the (for Python: non-`__init__`) methods. -/
def dipMethodNames (classInfo : ClassWithConstructor) (lines : List String)
    (languageId : String) : List String :=
  if languageId = "python" then
    (classInfo.methods.filter (fun m => !(m.name == "__init__"))).flatMap
      (fun m => (lineRangeSlice lines (m.startLine : Int) (m.endLine : Int)).flatMap
        (fun line => (detectPythonInstantiations line).filter
          (fun inst => !(isExcludedClass inst languageId))))
  else if tsLanguage languageId then
    classInfo.methods.flatMap
      (fun m => (lineRangeSlice lines (m.startLine : Int) (m.endLine : Int)).flatMap
        (fun line => (detectTypeScriptInstantiations line).filter
          (fun inst => !(isExcludedClass inst languageId))))
  else []

/-- `DIPResult` of `extension.ts` (the `violations` site list and the
`suggestion` text, which only feed the rendered report, are not modelled). -/
structure DIPResult where
  className : String
  startLine : Nat
  constructorInstantiations : Nat
  methodInstantiations : Nat
  injectedDependencies : Nat
  totalDependencies : Nat
  dii : Rat
  dipScore : Rat
deriving Repr, DecidableEq

/-- `analyzeDIP` of `extension.ts`: count constructor-body and method-body
instantiation sites, collect the distinct instantiated names into the
`instantiatedClasses` set, and derive `dii` and `dipScore`. -/
def analyzeDIP (classInfo : ClassWithConstructor) (text : String)
    (languageId : String) : DIPResult :=
  let lines := splitLines text
  let ctorNames := dipConstructorNames classInfo lines languageId
  let methodNames := dipMethodNames classInfo lines languageId
  let instantiatedClasses := (ctorNames ++ methodNames).foldl setAdd []
  let injectedDependencies := classInfo.constructorParams.length
  let totalDependencies := injectedDependencies + instantiatedClasses.length
  { className := classInfo.name
    startLine := classInfo.startLine
    constructorInstantiations := ctorNames.length
    methodInstantiations := methodNames.length
    injectedDependencies := injectedDependencies
    totalDependencies := totalDependencies
    dii := if totalDependencies > 0 then
        (injectedDependencies : Rat) / (totalDependencies : Rat)
      else 1
    dipScore := (ctorNames.length : Rat) * 2 + (methodNames.length : Rat) * (1.5 : Rat) }

/-! ## Theorems: C9, C10, C2, C4 -/

/-- C9: for every input text, when the declared language identifier is not
one of the supported identifiers (`python`, `typescript`, `javascript`,
`typescriptreact`, `javascriptreact`), `parseClasses` returns the empty list
of class records (and, being a total function, does not fail). -/
theorem claim_C9_unsupported_language_empty (text languageId : String)
    (h : languageId ∉
      ["python", "typescript", "javascript", "typescriptreact", "javascriptreact"]) :
    parseClasses text languageId = [] := by
  have h1 : ¬ languageId = "python" := fun e => h (by simp [e])
  have h2 : ¬ languageId = "typescript" := fun e => h (by simp [e])
  have h3 : ¬ languageId = "javascript" := fun e => h (by simp [e])
  have h4 : ¬ languageId = "typescriptreact" := fun e => h (by simp [e])
  have h5 : ¬ languageId = "javascriptreact" := fun e => h (by simp [e])
  simp [parseClasses, h1, h2, h3, h4, h5]

/-- Witness for C9 at the concrete language identifier `go`. -/
theorem claim_C9_unsupported_language_empty_witness :
    "go" ∉ ["python", "typescript", "javascript", "typescriptreact", "javascriptreact"]
      ∧ parseClasses "class A:\n    def m(self):\n        pass" "go" = [] :=
  ⟨by decide, claim_C9_unsupported_language_empty _ _ (by decide)⟩

/-- C10: for every class record with at most one qualifying method (after
excluding magic methods other than the initializer), `calculateLCOM4`
returns `lcom4Value = 1`. -/
theorem claim_C10_trivial_cohesion (classInfo : ClassInfo)
    (h : (qualifyingMethods classInfo).length ≤ 1) :
    (calculateLCOM4 classInfo).lcom4Value = 1 := by
  simp [calculateLCOM4, h]

/-- Witness for C10 at a concrete one-method class. -/
theorem claim_C10_trivial_cohesion_witness :
    (qualifyingMethods ⟨"A", 0, 1, [⟨"m", 1, 1, ["x"], []⟩], ["x"]⟩).length ≤ 1
      ∧ (calculateLCOM4 ⟨"A", 0, 1, [⟨"m", 1, 1, ["x"], []⟩], ["x"]⟩).lcom4Value = 1 :=
  ⟨by decide, claim_C10_trivial_cohesion _ (by decide)⟩

/-- `calculateOCPScore` with an arbitrary starting accumulator. -/
theorem ocpScore_foldl_shift (violations : List OCPViolation) :
    ∀ s : Rat, violations.foldl ocpStep s = s + violations.foldl ocpStep 0 := by
  induction violations with
  | nil => intro s; simp
  | cons v vs ih =>
    intro s
    simp only [List.foldl_cons]
    rw [ih (ocpStep s v), ih (ocpStep 0 v)]
    have : ocpStep s v = s + ocpStep 0 v := by
      cases h : v.type <;> simp [ocpStep, h]
    rw [this]; ring

/-- C2: `ocpScore` is the sum of per-detected-occurrence weights — 2.0 per
`instanceof`/`type_equality` occurrence, 1.5 per `type_field` occurrence,
1.0 per `typeof` occurrence (a method body enters `calculateOCPScore` only
through its detected violation list); in particular two `isinstance`-style
checks plus one type-field equality check score exactly 5.5. -/
theorem claim_C2_ocp_score_additive :
    (∀ violations : List OCPViolation,
      calculateOCPScore violations =
        2 * (countOCPType violations OCPType.instanceof : Rat)
          + 2 * (countOCPType violations OCPType.type_equality : Rat)
          + (1.5 : Rat) * (countOCPType violations OCPType.type_field : Rat)
          + (countOCPType violations OCPType.typeof : Rat))
    ∧ calculateOCPScore
        [⟨0, OCPType.instanceof, "isinstance(x, A)"⟩,
         ⟨1, OCPType.instanceof, "isinstance(x, B)"⟩,
         ⟨2, OCPType.type_field, "obj.type == \x22a\x22"⟩] = (5.5 : Rat) := by
  constructor
  · intro violations
    induction violations with
    | nil => simp [calculateOCPScore, countOCPType]
    | cons v vs ih =>
      simp only [calculateOCPScore, List.foldl_cons] at *
      rw [ocpScore_foldl_shift vs (ocpStep 0 v), ih]
      cases h : v.type <;>
        simp [ocpStep, h, countOCPType, List.filter_cons] <;> ring
  · norm_num [calculateOCPScore, ocpStep]

/-- C4: an implementation with at least one stub method is reported exactly
when `sir >= sirThreshold` or `stubCount >= 2`. -/
theorem claim_C4_isp_or_escape (impl : ImplementationInfo) (sirThreshold : Rat)
    (h : 1 ≤ stubMethodCount impl) :
    ispStubFlagged impl sirThreshold = true ↔
      sirThreshold ≤ stubSir impl ∨ 2 ≤ stubMethodCount impl := by
  have hpos : impl.emptyMethods.length > 0 ∨ impl.notImplementedMethods.length > 0 := by
    by_contra hc
    push_neg at hc
    simp only [stubMethodCount] at h
    omega
  rcases hpos with hp | hp <;> simp [ispStubFlagged, hp]

/-- Witness for C4: an implementation with exactly 2 stub methods out of 10
(ratio 0.2, below the default 0.3 threshold) is still flagged. -/
theorem claim_C4_isp_or_escape_witness :
    stubSir ⟨"Impl", 0, 10, [⟨"a", 1, "a() { }"⟩, ⟨"b", 2, "b() { }"⟩], []⟩ < 3/10
      ∧ ispStubFlagged ⟨"Impl", 0, 10, [⟨"a", 1, "a() { }"⟩, ⟨"b", 2, "b() { }"⟩], []⟩
          (3/10) = true := by
  refine ⟨by norm_num [stubSir, stubMethodCount], ?_⟩
  exact (claim_C4_isp_or_escape _ (3/10) (by decide)).mpr (Or.inr (by decide))

/-- C3: (a) a class with zero declared constructor parameters, exactly two
(non-excluded, distinct) instantiation sites in its constructor body and one
in a non-constructor method body gets `dipScore = 2*2.0 + 1*1.5 = 5.5` and
`dii = 0/3 = 0`; (b) for every class, `dii = injected / total`, defined as 1
when `total = 0`. -/
theorem claim_C3_dip_scoring :
    (∀ (classInfo : ClassWithConstructor) (text languageId : String) (a b d : String),
      classInfo.constructorParams = [] →
      dipConstructorNames classInfo (splitLines text) languageId = [a, b] →
      dipMethodNames classInfo (splitLines text) languageId = [d] →
      a ≠ b → a ≠ d → b ≠ d →
      (analyzeDIP classInfo text languageId).dipScore = (5.5 : Rat)
        ∧ (analyzeDIP classInfo text languageId).dii = 0)
    ∧ (∀ (classInfo : ClassWithConstructor) (text languageId : String),
      (analyzeDIP classInfo text languageId).dii =
        if (analyzeDIP classInfo text languageId).totalDependencies > 0 then
          ((analyzeDIP classInfo text languageId).injectedDependencies : Rat)
            / ((analyzeDIP classInfo text languageId).totalDependencies : Rat)
        else 1) := by
  constructor
  · intro classInfo text languageId a b d hparams hctor hmeth hab had hbd
    have hset : ([a, b] ++ [d]).foldl setAdd [] = [a, b, d] := by
      simp [setAdd, List.contains_cons, hab.symm, had.symm, hbd.symm]
    constructor <;>
      · simp only [analyzeDIP, hctor, hmeth, hparams, hset]
        norm_num
  · intro classInfo text languageId
    rfl

/-- Witness for C3: a concrete TypeScript class whose constructor lines hold
`new Foo()` and `new Bar()` and whose method line holds `new Baz()`. -/
theorem claim_C3_dip_scoring_witness :
    dipConstructorNames ⟨"C", 0, 1, [⟨"m", 1, 1, [], []⟩], [], 0, 0, []⟩
        (splitLines "this.a = new Foo(); this.b = new Bar();\nconst x = new Baz();")
        "typescript" = ["Foo", "Bar"]
      ∧ dipMethodNames ⟨"C", 0, 1, [⟨"m", 1, 1, [], []⟩], [], 0, 0, []⟩
          (splitLines "this.a = new Foo(); this.b = new Bar();\nconst x = new Baz();")
          "typescript" = ["Baz"]
      ∧ (analyzeDIP ⟨"C", 0, 1, [⟨"m", 1, 1, [], []⟩], [], 0, 0, []⟩
          "this.a = new Foo(); this.b = new Bar();\nconst x = new Baz();"
          "typescript").dipScore = (5.5 : Rat)
      ∧ (analyzeDIP ⟨"C", 0, 1, [⟨"m", 1, 1, [], []⟩], [], 0, 0, []⟩
          "this.a = new Foo(); this.b = new Bar();\nconst x = new Baz();"
          "typescript").dii = 0 := by
  refine ⟨by decide, by decide, ?_⟩
  exact claim_C3_dip_scoring.1 _ _ _ "Foo" "Bar" "Baz" rfl (by decide) (by decide)
    (by decide) (by decide) (by decide)

/-! ## Theorem C5: lifecycle of open classes at end of input -/

/-- Fields of the method and class untouched by one Python scan step. -/
theorem pyRefStep_fields (line : String) (mc : MethodInfo × ClassInfo) (v : String) :
    (pyRefStep line mc v).1.name = mc.1.name
      ∧ (pyRefStep line mc v).1.startLine = mc.1.startLine
      ∧ (pyRefStep line mc v).1.endLine = mc.1.endLine
      ∧ (pyRefStep line mc v).2.name = mc.2.name
      ∧ (pyRefStep line mc v).2.startLine = mc.2.startLine
      ∧ (pyRefStep line mc v).2.endLine = mc.2.endLine
      ∧ (pyRefStep line mc v).2.methods = mc.2.methods := by
  simp only [pyRefStep]
  split
  · split <;> simp
  · simp

/-- Fields of the method and class untouched by the whole Python body-line
scan fold. -/
theorem pyScanFold_fields (line : String) (names : List String) :
    ∀ mc : MethodInfo × ClassInfo,
      (names.foldl (pyRefStep line) mc).1.name = mc.1.name
        ∧ (names.foldl (pyRefStep line) mc).1.startLine = mc.1.startLine
        ∧ (names.foldl (pyRefStep line) mc).1.endLine = mc.1.endLine
        ∧ (names.foldl (pyRefStep line) mc).2.name = mc.2.name
        ∧ (names.foldl (pyRefStep line) mc).2.startLine = mc.2.startLine
        ∧ (names.foldl (pyRefStep line) mc).2.endLine = mc.2.endLine
        ∧ (names.foldl (pyRefStep line) mc).2.methods = mc.2.methods := by
  induction names with
  | nil => intro mc; simp
  | cons v vs ih =>
    intro mc
    simp only [List.foldl_cons]
    obtain ⟨h1, h2, h3, h4, h5, h6, h7⟩ := ih (pyRefStep line mc v)
    obtain ⟨g1, g2, g3, g4, g5, g6, g7⟩ := pyRefStep_fields line mc v
    exact ⟨h1.trans g1, h2.trans g2, h3.trans g3, h4.trans g4, h5.trans g5,
      h6.trans g6, h7.trans g7⟩

/-- Fields of the method and class untouched by `pyScanLine`. -/
theorem pyScanLine_fields (line : String) (m : MethodInfo) (c : ClassInfo) :
    (pyScanLine line m c).1.name = m.name
      ∧ (pyScanLine line m c).1.startLine = m.startLine
      ∧ (pyScanLine line m c).1.endLine = m.endLine
      ∧ (pyScanLine line m c).2.name = c.name
      ∧ (pyScanLine line m c).2.startLine = c.startLine
      ∧ (pyScanLine line m c).2.endLine = c.endLine
      ∧ (pyScanLine line m c).2.methods = c.methods :=
  pyScanFold_fields line _ (m, c)

/-- The start line recorded for the open class, as a (0- or 1-element) list. -/
def pushedStarts : Option ClassInfo → List Nat
  | some c => [c.startLine]
  | none => []

/-- Indices (from a given offset) of the lines recognized as Python class
declarations. -/
def pyDeclFrom : Nat → List String → List Nat
  | _, [] => []
  | i, l :: ls =>
    if (matchPyClass (jsTrimStart l)).isSome then i :: pyDeclFrom (i + 1) ls
    else pyDeclFrom (i + 1) ls

/-- Fields of the class untouched by `flushMethod`. -/
theorem flushMethod_fields (c : ClassInfo) (om : Option MethodInfo) :
    (flushMethod c om).name = c.name
      ∧ (flushMethod c om).startLine = c.startLine
      ∧ (flushMethod c om).endLine = c.endLine
      ∧ (flushMethod c om).instanceVariables = c.instanceVariables := by
  cases om <;> simp [flushMethod]

/-- One `pyStep`: the list of start lines of pushed-plus-open classes grows
exactly by the current line when it is a class declaration. -/
theorem pyStep_startLines (i : Nat) (l : String) (s : PyState) :
    (pyStep i l s).classes.map (fun c => c.startLine)
        ++ pushedStarts (pyStep i l s).currentClass
      = s.classes.map (fun c => c.startLine) ++ pushedStarts s.currentClass
        ++ (if (matchPyClass (jsTrimStart l)).isSome then [i] else []) := by
  simp only [pyStep]
  cases hm : matchPyClass (jsTrimStart l) with
  | some cname =>
    cases hc : s.currentClass with
    | none => simp [pushedStarts, hc]
    | some c => simp [pushedStarts, hc, (flushMethod_fields c s.currentMethod).2.1]
  | none =>
    cases hc : s.currentClass with
    | none => simp [pushedStarts, hc]
    | some c =>
      simp only [hc]
      split
      · simp [pushedStarts, (flushMethod_fields c s.currentMethod).2.1]
      · cases hmm : matchPyMethod (jsTrimStart l) with
        | some mname =>
          simp [pushedStarts, hmm, (flushMethod_fields c s.currentMethod).2.1]
        | none =>
          cases hcm : s.currentMethod with
          | none => simp [pushedStarts, hmm, hcm, hc]
          | some m =>
            simp only [hmm, hcm]
            split
            · simp [pushedStarts, (pyScanLine_fields l { m with endLine := i } c).2.2.2.2.1]
            · simp [pushedStarts, hc]

/-- `pyRun`: accumulated version of `pyStep_startLines`. -/
theorem pyRun_startLines (ls : List String) :
    ∀ (i : Nat) (s : PyState),
      (pyRun i ls s).classes.map (fun c => c.startLine)
          ++ pushedStarts (pyRun i ls s).currentClass
        = s.classes.map (fun c => c.startLine) ++ pushedStarts s.currentClass
          ++ pyDeclFrom i ls := by
  induction ls with
  | nil => intro i s; simp [pyRun, pyDeclFrom]
  | cons l ls ih =>
    intro i s
    simp only [pyRun, pyDeclFrom]
    rw [ih (i + 1) (pyStep i l s)]
    rw [pyStep_startLines i l s]
    by_cases h : (matchPyClass (jsTrimStart l)).isSome
    · simp [h]
    · simp [h]

/-- Line indices recognized as Python class declarations. -/
def pyClassDeclIndices (lines : List String) : List Nat := pyDeclFrom 0 lines

/-- C5 (amended): in indentation mode every recognized class declaration -
including one still open when the end of input is reached - is closed and
pushed: the emitted records' start lines are exactly the class-declaration
line indices, in order.  (In brace mode the claim fails: see the
counterexample; a class whose braces are still open at end of input is
discarded, since `parseTypeScriptClasses` has no end-of-input flush.) -/
theorem claim_C5_python_end_of_input_flush (lines : List String) :
    (parsePythonClasses lines).map (fun c => c.startLine) = pyClassDeclIndices lines := by
  have h := pyRun_startLines lines 0 ⟨[], none, none, 0, 0⟩
  simp only [pushedStarts, List.map_nil, List.nil_append] at h
  simp only [parsePythonClasses, pyClassDeclIndices]
  cases hc : (pyRun 0 lines ⟨[], none, none, 0, 0⟩).currentClass with
  | none => rw [hc] at h; simpa using h
  | some c =>
    rw [hc] at h
    simp only [List.map_append]
    cases hm : (pyRun 0 lines ⟨[], none, none, 0, 0⟩).currentMethod <;>
      simpa [flushMethod, hm] using h

/-- Counterexample for C5 as stated: in brace mode, the recognized class
declaration `class Foo {` with no later closing brace is *not* emitted. -/
theorem claim_C5_counterexample :
    matchTsClass (jsTrim "class Foo \x7b") = some "Foo"
      ∧ parseClasses "class Foo \x7b" "typescript" = [] := by decide

/-! ## Theorem C6: classification of instance-qualifier references -/

/-- Inserting into a JavaScript set keeps old members. -/
theorem mem_setAdd_of_mem {l : List String} {x : String} (y : String) (h : x ∈ l) :
    x ∈ setAdd l y := by
  simp only [setAdd]
  split
  · exact h
  · exact List.mem_append_left _ h

/-- Inserting into a JavaScript set makes the inserted element a member. -/
theorem mem_setAdd_self (l : List String) (x : String) : x ∈ setAdd l x := by
  simp only [setAdd]
  split
  · next h => exact List.elem_iff.mp h
  · exact List.mem_append_right _ (List.mem_singleton.mpr rfl)

/-- One Python scan step never removes a recorded variable. -/
theorem pyRefStep_mono (line : String) (mc : MethodInfo × ClassInfo) (v x : String) :
    (x ∈ mc.1.usedVariables → x ∈ (pyRefStep line mc v).1.usedVariables)
      ∧ (x ∈ mc.2.instanceVariables → x ∈ (pyRefStep line mc v).2.instanceVariables) := by
  simp only [pyRefStep]
  split
  · split
    · exact ⟨fun h => h, fun h => h⟩
    · exact ⟨fun h => mem_setAdd_of_mem v h, fun h => mem_setAdd_of_mem v h⟩
  · exact ⟨fun h => h, fun h => h⟩

/-- The Python scan fold never removes a recorded variable. -/
theorem pyFold_mono (line : String) (names : List String) :
    ∀ (mc : MethodInfo × ClassInfo) (x : String),
      (x ∈ mc.1.usedVariables → x ∈ (names.foldl (pyRefStep line) mc).1.usedVariables)
        ∧ (x ∈ mc.2.instanceVariables →
            x ∈ (names.foldl (pyRefStep line) mc).2.instanceVariables) := by
  induction names with
  | nil => intro mc x; exact ⟨fun h => h, fun h => h⟩
  | cons v vs ih =>
    intro mc x
    refine ⟨fun h => ?_, fun h => ?_⟩
    · exact (ih (pyRefStep line mc v) x).1 ((pyRefStep_mono line mc v x).1 h)
    · exact (ih (pyRefStep line mc v) x).2 ((pyRefStep_mono line mc v x).2 h)

/-- One TypeScript scan step never removes a recorded variable. -/
theorem tsRefStep_mono (line : String) (mc : MethodInfo × ClassInfo) (v x : String) :
    (x ∈ mc.1.usedVariables → x ∈ (tsRefStep line mc v).1.usedVariables)
      ∧ (x ∈ mc.2.instanceVariables → x ∈ (tsRefStep line mc v).2.instanceVariables) := by
  simp only [tsRefStep]
  split
  · exact ⟨fun h => h, fun h => h⟩
  · exact ⟨fun h => mem_setAdd_of_mem v h, fun h => mem_setAdd_of_mem v h⟩

/-- The TypeScript scan fold never removes a recorded variable. -/
theorem tsFold_mono (line : String) (names : List String) :
    ∀ (mc : MethodInfo × ClassInfo) (x : String),
      (x ∈ mc.1.usedVariables → x ∈ (names.foldl (tsRefStep line) mc).1.usedVariables)
        ∧ (x ∈ mc.2.instanceVariables →
            x ∈ (names.foldl (tsRefStep line) mc).2.instanceVariables) := by
  induction names with
  | nil => intro mc x; exact ⟨fun h => h, fun h => h⟩
  | cons v vs ih =>
    intro mc x
    refine ⟨fun h => ?_, fun h => ?_⟩
    · exact (ih (tsRefStep line mc v) x).1 ((tsRefStep_mono line mc v x).1 h)
    · exact (ih (tsRefStep line mc v) x).2 ((tsRefStep_mono line mc v x).2 h)

/-- C6 (amended): a matched instance-qualifier reference is added to the
owning method's `usedVariables` and the owning class's `instanceVariables`
provided (a) neither `qual.name(` nor `qual.name (` occurs *anywhere in the
line* (the call test is line-global, not local to the occurrence), and
(b) for the indentation-mode scan only, the name does not both start and end
with an underscore (such names are skipped entirely). -/
theorem claim_C6_self_reference_recording :
    (∀ (line : String) (m : MethodInfo) (c : ClassInfo) (name : String),
      name ∈ scanRefs "self" line.data.length line.data →
      (jsStartsWith name "_" && jsEndsWith name "_") = false →
      strIncludes line ("self." ++ name ++ "(") = false →
      strIncludes line ("self." ++ name ++ " (") = false →
      name ∈ (pyScanLine line m c).1.usedVariables
        ∧ name ∈ (pyScanLine line m c).2.instanceVariables)
    ∧ (∀ (line : String) (m : MethodInfo) (c : ClassInfo) (name : String),
      name ∈ scanRefs "this" line.data.length line.data →
      strIncludes line ("this." ++ name ++ "(") = false →
      strIncludes line ("this." ++ name ++ " (") = false →
      name ∈ (tsScanLine line m c).1.usedVariables
        ∧ name ∈ (tsScanLine line m c).2.instanceVariables) := by
  constructor
  · intro line m c name hmem hus h1 h2
    have hstep : ∀ mc : MethodInfo × ClassInfo,
        name ∈ (pyRefStep line mc name).1.usedVariables
          ∧ name ∈ (pyRefStep line mc name).2.instanceVariables := by
      intro mc
      have hguard : (!(jsStartsWith name "_") || !(jsEndsWith name "_")) = true := by
        rw [← Bool.not_and, hus]; rfl
      simp only [pyRefStep, hguard, h1, h2, if_true, Bool.or_self, Bool.false_or,
        if_false]
      exact ⟨mem_setAdd_self _ _, mem_setAdd_self _ _⟩
    have main : ∀ (names : List String) (mc : MethodInfo × ClassInfo),
        name ∈ names →
        name ∈ (names.foldl (pyRefStep line) mc).1.usedVariables
          ∧ name ∈ (names.foldl (pyRefStep line) mc).2.instanceVariables := by
      intro names
      induction names with
      | nil => intro mc h; cases h
      | cons v vs ih =>
        intro mc h
        rcases List.mem_cons.mp h with rfl | h'
        · refine ⟨(pyFold_mono line vs _ name).1 (hstep mc).1,
            (pyFold_mono line vs _ name).2 (hstep mc).2⟩
        · exact ih (pyRefStep line mc v) h'
    exact main _ (m, c) hmem
  · intro line m c name hmem h1 h2
    have hstep : ∀ mc : MethodInfo × ClassInfo,
        name ∈ (tsRefStep line mc name).1.usedVariables
          ∧ name ∈ (tsRefStep line mc name).2.instanceVariables := by
      intro mc
      simp only [tsRefStep, h1, h2, Bool.or_self, if_false]
      exact ⟨mem_setAdd_self _ _, mem_setAdd_self _ _⟩
    have main : ∀ (names : List String) (mc : MethodInfo × ClassInfo),
        name ∈ names →
        name ∈ (names.foldl (tsRefStep line) mc).1.usedVariables
          ∧ name ∈ (names.foldl (tsRefStep line) mc).2.instanceVariables := by
      intro names
      induction names with
      | nil => intro mc h; cases h
      | cons v vs ih =>
        intro mc h
        rcases List.mem_cons.mp h with rfl | h'
        · refine ⟨(tsFold_mono line vs _ name).1 (hstep mc).1,
            (tsFold_mono line vs _ name).2 (hstep mc).2⟩
        · exact ih (tsRefStep line mc v) h'
    exact main _ (m, c) hmem

/-- Witness for the amended C6 at a concrete Python body line. -/
theorem claim_C6_self_reference_recording_witness :
    "foo" ∈ scanRefs "self" ("        x = self.foo").data.length ("        x = self.foo").data
      ∧ "foo" ∈ (pyScanLine "        x = self.foo" ⟨"m", 1, 2, [], []⟩
          ⟨"A", 0, 2, [], []⟩).1.usedVariables
      ∧ "foo" ∈ (pyScanLine "        x = self.foo" ⟨"m", 1, 2, [], []⟩
          ⟨"A", 0, 2, [], []⟩).2.instanceVariables := by
  refine ⟨by decide, ?_⟩
  have h := claim_C6_self_reference_recording.1 "        x = self.foo"
    ⟨"m", 1, 2, [], []⟩ ⟨"A", 0, 2, [], []⟩ "foo" (by decide) (by decide) (by decide)
    (by decide)
  exact h

/-- Counterexample for C6 as stated: on the Python side the reference
`self.__data__` (not followed by a parenthesis) is skipped by the
underscore filter, so nothing is recorded. -/
theorem claim_C6_counterexample :
    "__data__" ∈ scanRefs "self" ("        x = self.__data__").data.length
        ("        x = self.__data__").data
      ∧ strIncludes "        x = self.__data__" "self.__data__(" = false
      ∧ strIncludes "        x = self.__data__" "self.__data__ (" = false
      ∧ parsePythonClasses ["class A:", "    def m(self):", "        x = self.__data__"]
          = [⟨"A", 0, 2, [⟨"m", 1, 2, [], []⟩], []⟩] := by decide

/-! ## Theorem C7: the primitive-tag allow-list of the typeof check -/

/-- The single-quote character (written by code to stay clear of escapes). -/
def singleQuote : Char := Char.ofNat 39

/-- The `["']` character class. -/
def quoteChar (c : Char) : Bool := c == '"' || c == singleQuote

/-- One match of `/typeof\s+\w+\s*[=!]==?\s*["']\w+["']/g`, stored as the
text between the `typeof` keyword and the opening quote (`mid`), the two
quote characters and the quoted literal; the full matched text `matched` is
recomposed from these. -/
structure TypeofMatch where
  mid : String
  openQ : Char
  literal : String
  closeQ : Char
deriving Repr, DecidableEq

/-- The full text of a typeof match (the `match[0]` of the JavaScript code). -/
def TypeofMatch.matched (m : TypeofMatch) : String :=
  ⟨"typeof".data ++ m.mid.data ++ [m.openQ] ++ m.literal.data ++ [m.closeQ]⟩

/-- Match `==?` after the initial `[=!]` character, greedily. -/
def matchEqTail (c3 : Char) : List Char → Option (List Char × List Char)
  | c4 :: c5 :: r7 =>
    if c4 = '=' then
      if c5 = '=' then some ([c3, c4, c5], r7) else some ([c3, c4], c5 :: r7)
    else none
  | [c4] => if c4 = '=' then some ([c3, c4], []) else none
  | [] => none

/-- Match `typeof\s+\w+\s*[=!]==?\s*["']\w+["']` at the head of the input
(greedy submatches; no backtracking is ever needed for this pattern). -/
def matchTypeofAt (cs : List Char) : Option (TypeofMatch × List Char) :=
  match dropLit "typeof".data cs with
  | none => none
  | some r0 =>
    match r0 with
    | [] => none
    | c1 :: r1 =>
      if wsChar c1 then
        let ws1 := r1.takeWhile wsChar
        let r2 := r1.dropWhile wsChar
        match takeWord1 r2 with
        | none => none
        | some (varName, r3) =>
          let ws2 := r3.takeWhile wsChar
          let r4 := r3.dropWhile wsChar
          match r4 with
          | c3 :: r5 =>
            if c3 = '=' ∨ c3 = '!' then
              match matchEqTail c3 r5 with
              | none => none
              | some (eqs, r7) =>
                let ws3 := r7.takeWhile wsChar
                let r8 := r7.dropWhile wsChar
                match r8 with
                | q1 :: r9 =>
                  if quoteChar q1 then
                    match takeWord1 r9 with
                    | none => none
                    | some (lit, r10) =>
                      match r10 with
                      | q2 :: r11 =>
                        if quoteChar q2 then
                          some
                            ({ mid := ⟨[c1] ++ ws1 ++ varName.data ++ ws2 ++ eqs ++ ws3⟩
                               openQ := q1
                               literal := lit
                               closeQ := q2 }, r11)
                        else none
                      | [] => none
                  else none
                | [] => none
            else none
          | [] => none
      else none

/-- `matchAll` scan for the typeof pattern (fuel = input length). -/
def scanTypeof : Nat → List Char → List TypeofMatch
  | 0, _ => []
  | _, [] => []
  | fuel + 1, c :: rest =>
    match matchTypeofAt (c :: rest) with
    | some (m, r') => m :: scanTypeof fuel r'
    | none => scanTypeof fuel rest

/-- The primitive-tag allow-list test of `detectTypeScriptOCPViolations`
(line-global `includes` checks, in source order). -/
def typeofPrimitiveGuard (line : String) : Bool :=
  strIncludes line "'string'" || strIncludes line "\"string\""
    || strIncludes line "'number'" || strIncludes line "\"number\""
    || strIncludes line "'boolean'" || strIncludes line "\"boolean\""
    || strIncludes line "'undefined'" || strIncludes line "\"undefined\""

/-- The typeof block of `detectTypeScriptOCPViolations` for one line: every
typeof match is recorded as a `typeof` violation unless the line-global
guard finds one of the primitive-tag literals (in which case none is). -/
def detectTsTypeofViolations (line : String) (lineNumber : Nat) : List OCPViolation :=
  (scanTypeof line.data.length line.data).filterMap
    (fun m =>
      if !(strIncludes line "typeof") || !(typeofPrimitiveGuard line) then
        some ⟨lineNumber, OCPType.typeof, m.matched⟩
      else none)

/-- A successful `dropLit` splits the input. -/
theorem dropLit_append {p : List Char} : ∀ {cs r : List Char},
    dropLit p cs = some r → cs = p ++ r := by
  induction p with
  | nil => intro cs r h; simp only [dropLit, Option.some_inj] at h; simp [h]
  | cons a as ih =>
    intro cs r h
    cases cs with
    | nil => simp [dropLit] at h
    | cons c cs' =>
      simp only [dropLit] at h
      split at h
      · next hca => subst hca; simpa using ih h
      · exact absurd h (by simp)

/-- A successful `takeWord1` splits the input. -/
theorem takeWord1_append {cs : List Char} {w : String} {r : List Char}
    (h : takeWord1 cs = some (w, r)) : cs = w.data ++ r := by
  cases cs with
  | nil => simp [takeWord1] at h
  | cons c cs' =>
    simp only [takeWord1] at h
    split at h
    · simp only [Option.some_inj, Prod.mk.injEq] at h
      obtain ⟨hw, hr⟩ := h
      subst hw; subst hr
      exact (List.takeWhile_append_dropWhile ..).symm
    · exact absurd h (by simp)

/-- A successful `matchEqTail` splits the input. -/
theorem matchEqTail_append {c3 : Char} : ∀ {r5 eqs r7 : List Char},
    matchEqTail c3 r5 = some (eqs, r7) → c3 :: r5 = eqs ++ r7 := by
  intro r5 eqs r7 h
  cases r5 with
  | nil => simp [matchEqTail] at h
  | cons c4 r6 =>
    cases r6 with
    | nil =>
      simp only [matchEqTail] at h
      split at h
      · simp only [Option.some_inj, Prod.mk.injEq] at h
        next hc4 => simp [← h.1, ← h.2, hc4]
      · exact absurd h (by simp)
    | cons c5 r7' =>
      simp only [matchEqTail] at h
      split at h
      · next hc4 =>
        split at h <;> simp only [Option.some_inj, Prod.mk.injEq] at h <;>
          simp [← h.1, ← h.2, hc4]
      · exact absurd h (by simp)

/-- A successful `matchTypeofAt` splits the input: the matched text followed
by the rest is the scanned text. -/
theorem matchTypeofAt_split {cs : List Char} {m : TypeofMatch} {rest : List Char}
    (h : matchTypeofAt cs = some (m, rest)) :
    cs = m.matched.data ++ rest := by
  simp only [matchTypeofAt] at h
  split at h
  · exact absurd h (by simp)
  · next r0 hdrop =>
    split at h
    · exact absurd h (by simp)
    · next c1 r1 =>
      split at h
      case isFalse => exact absurd h (by simp)
      case isTrue hws =>
        split at h
        · exact absurd h (by simp)
        · next varName r3 hword =>
          split at h
          case h_2 => exact absurd h (by simp)
          case h_1 c3 r5 hr4 =>
            split at h
            case isFalse => exact absurd h (by simp)
            case isTrue hc3 =>
              split at h
              · exact absurd h (by simp)
              · next eqs r7 heq =>
                split at h
                case h_2 => exact absurd h (by simp)
                case h_1 q1 r9 hr8 =>
                  split at h
                  case isFalse => exact absurd h (by simp)
                  case isTrue hq1 =>
                    split at h
                    · exact absurd h (by simp)
                    · next lit r10 hword2 =>
                      split at h
                      case h_2 => exact absurd h (by simp)
                      case h_1 _ q2 r12 =>
                        split at h
                        case isFalse => exact absurd h (by simp)
                        case isTrue hq2 =>
                          simp only [Option.some_inj, Prod.mk.injEq] at h
                          obtain ⟨hm, hrest⟩ := h
                          subst hrest
                          subst hm
                          have e1 := dropLit_append hdrop
                          have e2 : r1 = r1.takeWhile wsChar ++ r1.dropWhile wsChar :=
                            (List.takeWhile_append_dropWhile ..).symm
                          have e3 := takeWord1_append hword
                          have e4 : r3 = r3.takeWhile wsChar ++ r3.dropWhile wsChar :=
                            (List.takeWhile_append_dropWhile ..).symm
                          have e6 := matchEqTail_append heq
                          have e7 : r7 = r7.takeWhile wsChar ++ r7.dropWhile wsChar :=
                            (List.takeWhile_append_dropWhile ..).symm
                          have e9 := takeWord1_append hword2
                          have hcs : cs = "typeof".data ++ ([c1] ++ (r1.takeWhile wsChar
                              ++ (varName.data ++ (r3.takeWhile wsChar ++ (eqs
                              ++ (r7.takeWhile wsChar ++ ([q1] ++ (lit.data
                              ++ ([q2] ++ r12))))))))) := by
                            rw [e1]
                            conv_lhs => rw [e2, e3, e4, hr4, e6, e7, hr8, e9]
                            simp [List.append_assoc]
                          rw [hcs]
                          simp [TypeofMatch.matched, List.append_assoc]

/-- Every reported match's text occurs contiguously in the scanned text. -/
theorem scanTypeof_segment : ∀ (fuel : Nat) (cs : List Char) (m : TypeofMatch),
    m ∈ scanTypeof fuel cs → ∃ l r, cs = l ++ m.matched.data ++ r := by
  intro fuel
  induction fuel with
  | zero => intro cs m hm; simp [scanTypeof] at hm
  | succ fuel ih =>
    intro cs m hm
    cases cs with
    | nil => simp [scanTypeof] at hm
    | cons c rest =>
      simp only [scanTypeof] at hm
      split at hm
      · next mt r' heq =>
        rcases List.mem_cons.mp hm with rfl | hm'
        · exact ⟨[], r', by simpa using matchTypeofAt_split heq⟩
        · obtain ⟨l, r, hlr⟩ := ih r' m hm'
          exact ⟨mt.matched.data ++ l, r,
            by simp [matchTypeofAt_split heq, hlr, List.append_assoc]⟩
      · obtain ⟨l, r, hlr⟩ := ih rest m hm
        exact ⟨c :: l, r, by simp [hlr]⟩

theorem strIncludes_of_segment {line : String} {pat : String}
    (h : pat.data <:+: line.data) : strIncludes line pat = true := by
  simp [strIncludes, h]

/-- C7: a typeof comparison whose quoted literal is one of the primitive
tags `string` / `number` / `boolean` / `undefined`, written with matching
quotes, is never recorded: the typeof block emits no violation at all for
that line. -/
theorem claim_C7_primitive_typeof_not_recorded (line : String) (lineNumber : Nat)
    (m : TypeofMatch)
    (hm : m ∈ scanTypeof line.data.length line.data)
    (hq : m.openQ = m.closeQ)
    (hqc : quoteChar m.openQ = true)
    (hlit : m.literal = "string" ∨ m.literal = "number" ∨ m.literal = "boolean"
      ∨ m.literal = "undefined") :
    detectTsTypeofViolations line lineNumber = [] := by
  obtain ⟨l, r, hlr⟩ := scanTypeof_segment _ _ _ hm
  -- the quoted literal is an infix of the line
  have hqlit : ([m.openQ] ++ m.literal.data ++ [m.closeQ]) <:+: line.data := by
    refine ⟨l ++ "typeof".data ++ m.mid.data, r, ?_⟩
    rw [hlr]
    simp [TypeofMatch.matched, List.append_assoc]
  have htypeof : ("typeof".data : List Char) <:+: line.data := by
    refine ⟨l, m.mid.data ++ [m.openQ] ++ m.literal.data ++ [m.closeQ] ++ r, ?_⟩
    rw [hlr]
    simp [TypeofMatch.matched, List.append_assoc]
  have hg1 : strIncludes line "typeof" = true := strIncludes_of_segment htypeof
  have hguard : typeofPrimitiveGuard line = true := by
    have hq2 : m.openQ = '"' ∨ m.openQ = singleQuote := by
      simpa [quoteChar] using hqc
    rw [← hq] at hqlit
    simp only [typeofPrimitiveGuard, Bool.or_eq_true_iff]
    rcases hq2 with hqe | hqe <;> rcases hlit with hl | hl | hl | hl <;>
      rw [hqe, hl] at hqlit <;>
      simp [strIncludes_of_segment (by simpa [singleQuote] using hqlit)]
  simp [detectTsTypeofViolations, hg1, hguard]

/-- Witness for C7 at a concrete line: `typeof x === 'string'` with matching
single quotes produces no typeof violation. -/
theorem claim_C7_primitive_typeof_not_recorded_witness :
    (⟨" x === ", singleQuote, "string", singleQuote⟩ : TypeofMatch)
        ∈ scanTypeof ("if (typeof x === 'string') \x7b").data.length
            ("if (typeof x === 'string') \x7b").data
      ∧ detectTsTypeofViolations "if (typeof x === 'string') \x7b" 3 = [] := by
  refine ⟨by decide, ?_⟩
  exact claim_C7_primitive_typeof_not_recorded _ 3
    ⟨" x === ", singleQuote, "string", singleQuote⟩ (by decide) rfl (by decide)
    (Or.inl rfl)

/-! ## Theorem C1: LCOM4 counts the groups of a disconnected partition -/

theorem strContains_iff {l : List String} {x : String} :
    l.contains x = true ↔ x ∈ l := by
  simp [List.contains]

/-- Reachability in the name graph of `calculateLCOM4`. -/
def lcomReach (methods : List MethodInfo) : String → String → Prop :=
  Relation.ReflTransGen (fun x y => y ∈ adjacencyOf methods x)

theorem filter_length_mono {p q : String → Bool} (h : ∀ x, q x = true → p x = true) :
    ∀ l : List String, (l.filter q).length ≤ (l.filter p).length := by
  intro l
  induction l with
  | nil => simp
  | cons x xs ih =>
    by_cases hq : q x = true
    · simp [List.filter_cons, hq, h x hq]; omega
    · simp only [List.filter_cons, Bool.not_eq_true] at hq ⊢
      rw [hq]
      by_cases hp : p x = true
      · simp [hp]; omega
      · simp only [Bool.not_eq_true] at hp; rw [hp]; simpa using ih

theorem filter_length_strict {p q : String → Bool} {a : String}
    (h : ∀ x, q x = true → p x = true) (hpa : p a = true) (hqa : q a = false) :
    ∀ l : List String, a ∈ l → (l.filter q).length < (l.filter p).length := by
  intro l
  induction l with
  | nil => simp
  | cons x xs ih =>
    intro hmem
    rcases List.mem_cons.mp hmem with rfl | hmem'
    · simp [List.filter_cons, hpa, hqa]
      calc (xs.filter q).length ≤ (xs.filter p).length := filter_length_mono h xs
        _ < (xs.filter p).length + 1 := by omega
    · have := ih hmem'
      by_cases hq : q x = true
      · simp [List.filter_cons, hq, h x hq]; omega
      · simp only [Bool.not_eq_true] at hq
        simp only [List.filter_cons, hq]
        by_cases hp : p x = true
        · simp [hp]; omega
        · simp only [Bool.not_eq_true] at hp; rw [hp]; simpa using this

/-- Both components of every inserted edge pair are method names. -/
theorem edgePairs_names {ms : List MethodInfo} {x y : String}
    (h : (x, y) ∈ edgePairs ms) :
    x ∈ ms.map (fun m => m.name) ∧ y ∈ ms.map (fun m => m.name) := by
  induction ms with
  | nil => simp [edgePairs] at h
  | cons m1 rest ih =>
    simp only [edgePairs, List.mem_append] at h
    rcases h with h | h
    · simp only [List.mem_flatMap, List.mem_filter] at h
      obtain ⟨m2, ⟨hm2, -⟩, hp⟩ := h
      simp only [List.mem_cons, List.mem_singleton, Prod.mk.injEq] at hp
      rcases hp with ⟨hx, hy⟩ | ⟨hx, hy⟩ | hfalse
      · subst hx; subst hy
        exact ⟨by simp, by simp [List.mem_map]; exact Or.inr ⟨m2, hm2, rfl⟩⟩
      · subst hx; subst hy
        exact ⟨by simp [List.mem_map]; exact Or.inr ⟨m2, hm2, rfl⟩, by simp⟩
      · cases hfalse
    · obtain ⟨hx, hy⟩ := ih h
      constructor <;> simp only [List.map_cons, List.mem_cons] <;>
        [exact Or.inr (by simpa using hx); exact Or.inr (by simpa using hy)]

/-- Adjacency membership is edge-pair membership. -/
theorem mem_adjacencyOf {ms : List MethodInfo} {x y : String} :
    y ∈ adjacencyOf ms x ↔ (x, y) ∈ edgePairs ms := by
  simp only [adjacencyOf, List.mem_map, List.mem_filter]
  constructor
  · rintro ⟨⟨px, py⟩, ⟨hmem, hx⟩, rfl⟩
    simp only [beq_iff_eq] at hx
    subst hx; exact hmem
  · intro h
    exact ⟨(x, y), ⟨h, by simp⟩, rfl⟩

theorem adjacencyOf_length_le (ms : List MethodInfo) (x : String) :
    (adjacencyOf ms x).length ≤ (edgePairs ms).length := by
  simp only [adjacencyOf, List.length_map]
  exact List.length_filter_le _ _

/-- Nodes outside the name list have no neighbours. -/
theorem adjacencyOf_not_name {ms : List MethodInfo} {x : String}
    (h : x ∉ ms.map (fun m => m.name)) : adjacencyOf ms x = [] := by
  rw [List.eq_nil_iff_forall_not_mem]
  intro y hy
  exact h (edgePairs_names (mem_adjacencyOf.mp hy)).1

theorem not_contains_iff {l : List String} {x : String} :
    (!(l.contains x)) = true ↔ x ∉ l := by
  simp [strContains_iff]

/-- Everything the traversal visits was already visited or is reachable from
some stack entry. -/
theorem dfsLoop_sound (ms : List MethodInfo) :
    ∀ (fuel : Nat) (stack visited comp : List String) (z : String),
      z ∈ (dfsLoop (adjacencyOf ms) fuel stack visited comp).1 →
      z ∈ visited ∨ ∃ x ∈ stack, lcomReach ms x z := by
  intro fuel
  induction fuel with
  | zero => intro stack visited comp z hz; exact Or.inl (by simpa [dfsLoop] using hz)
  | succ fuel ih =>
    intro stack visited comp z hz
    cases stack with
    | nil => exact Or.inl (by simpa [dfsLoop] using hz)
    | cons current stack =>
      simp only [dfsLoop] at hz
      split at hz
      · rcases ih stack visited comp z hz with h | ⟨x, hx, hr⟩
        · exact Or.inl h
        · exact Or.inr ⟨x, List.mem_cons_of_mem _ hx, hr⟩
      · rcases ih _ _ _ z hz with h | ⟨x, hx, hr⟩
        · rcases List.mem_append.mp h with h | h
          · exact Or.inl h
          · refine Or.inr ⟨current, List.mem_cons_self .., ?_⟩
            rw [List.mem_singleton.mp h]
            exact Relation.ReflTransGen.refl
        · rcases List.mem_append.mp hx with h | h
          · have hadj : x ∈ adjacencyOf ms current :=
              (List.mem_filter.mp (List.mem_reverse.mp h)).1
            exact Or.inr ⟨current, List.mem_cons_self ..,
              Relation.ReflTransGen.head hadj hr⟩
          · exact Or.inr ⟨x, List.mem_cons_of_mem _ h, hr⟩

/-- Fuel bound for the traversal. -/
def dfsBound (ms : List MethodInfo) (stack visited : List String) : Nat :=
  stack.length
    + ((ms.map (fun m => m.name)).filter (fun x => !(visited.contains x))).length
      * ((edgePairs ms).length + 1)

/-- With enough fuel and a semi-closed visited set, the traversal's final
visited set contains the initial visited set and stack and is closed under
adjacency. -/
theorem dfsLoop_complete (ms : List MethodInfo) :
    ∀ (fuel : Nat) (stack visited comp : List String),
      dfsBound ms stack visited ≤ fuel →
      (∀ x ∈ visited, ∀ y ∈ adjacencyOf ms x, y ∈ visited ∨ y ∈ stack) →
      (∀ z ∈ visited, z ∈ (dfsLoop (adjacencyOf ms) fuel stack visited comp).1)
        ∧ (∀ z ∈ stack, z ∈ (dfsLoop (adjacencyOf ms) fuel stack visited comp).1)
        ∧ (∀ x ∈ (dfsLoop (adjacencyOf ms) fuel stack visited comp).1,
            ∀ y ∈ adjacencyOf ms x,
            y ∈ (dfsLoop (adjacencyOf ms) fuel stack visited comp).1) := by
  intro fuel
  induction fuel with
  | zero =>
    intro stack visited comp hfuel hsemi
    have hstack : stack = [] := by
      have := Nat.le_zero.mp hfuel
      simp only [dfsBound] at this
      exact List.length_eq_zero.mp (by omega)
    subst hstack
    simp only [dfsLoop]
    exact ⟨fun z hz => hz, by simp, fun x hx y hy => by
      rcases hsemi x hx y hy with h | h
      · exact h
      · simp at h⟩
  | succ fuel ih =>
    intro stack visited comp hfuel hsemi
    cases stack with
    | nil =>
      simp only [dfsLoop]
      exact ⟨fun z hz => hz, by simp, fun x hx y hy => by
        rcases hsemi x hx y hy with h | h
        · exact h
        · simp at h⟩
    | cons current stack =>
      simp only [dfsLoop]
      split
      · next hcur =>
        have hcurmem : current ∈ visited := strContains_iff.mp hcur
        have hfuel' : dfsBound ms stack visited ≤ fuel := by
          simp only [dfsBound, List.length_cons] at hfuel ⊢
          omega
        have hsemi' : ∀ x ∈ visited, ∀ y ∈ adjacencyOf ms x,
            y ∈ visited ∨ y ∈ stack := by
          intro x hx y hy
          rcases hsemi x hx y hy with h | h
          · exact Or.inl h
          · rcases List.mem_cons.mp h with rfl | h'
            · exact Or.inl hcurmem
            · exact Or.inr h'
        obtain ⟨h1, h2, h3⟩ := ih stack visited comp hfuel' hsemi'
        refine ⟨h1, ?_, h3⟩
        intro z hz
        rcases List.mem_cons.mp hz with rfl | hz'
        · exact h1 z hcurmem
        · exact h2 z hz'
      · next hcur =>
        have hcurnot : current ∉ visited := by
          intro hmem
          exact hcur (strContains_iff.mpr hmem)
        have hfuel' : dfsBound ms
            ((((adjacencyOf ms current).filter
                (fun n => !((visited ++ [current]).contains n))).reverse) ++ stack)
            (visited ++ [current]) ≤ fuel := by
          have hq_imp_p : ∀ x : String,
              (!((visited ++ [current]).contains x)) = true →
              (!(visited.contains x)) = true := by
            intro x hx
            rw [not_contains_iff] at hx ⊢
            exact fun hm => hx (List.mem_append_left _ hm)
          have hmono := filter_length_mono hq_imp_p (ms.map (fun m => m.name))
          have hpush_le : (((adjacencyOf ms current).filter
              (fun n => !((visited ++ [current]).contains n))).reverse).length
              ≤ (edgePairs ms).length := by
            rw [List.length_reverse]
            calc ((adjacencyOf ms current).filter _).length
                ≤ (adjacencyOf ms current).length := List.length_filter_le _ _
              _ ≤ (edgePairs ms).length := adjacencyOf_length_le ms current
          simp only [dfsBound, List.length_append, List.length_cons] at hfuel ⊢
          set E := (edgePairs ms).length with hE
          set u := ((ms.map (fun m => m.name)).filter
            (fun x => !(visited.contains x))).length with hu
          set u2 := ((ms.map (fun m => m.name)).filter
            (fun x => !((visited ++ [current]).contains x))).length with hu2
          by_cases hname : current ∈ ms.map (fun m => m.name)
          · have hstrict : u2 < u := by
              rw [hu, hu2]
              exact filter_length_strict hq_imp_p
                (not_contains_iff.mpr hcurnot)
                (by
                  rw [← Bool.not_eq_true, not_contains_iff]
                  simp)
                _ hname
            have hmul : u2 * (E + 1) + (E + 1) ≤ u * (E + 1) := by
              calc u2 * (E + 1) + (E + 1) = (u2 + 1) * (E + 1) := by ring
                _ ≤ u * (E + 1) := Nat.mul_le_mul_right _ hstrict
            set A := u2 * (E + 1)
            set B := u * (E + 1)
            omega
          · have hempty : adjacencyOf ms current = [] := adjacencyOf_not_name hname
            rw [hempty]
            simp only [List.filter_nil, List.reverse_nil, List.length_nil]
            have hmul : u2 * (E + 1) ≤ u * (E + 1) :=
              Nat.mul_le_mul_right _ (by rw [hu, hu2]; exact hmono)
            set A := u2 * (E + 1)
            set B := u * (E + 1)
            omega
        have hsemi' : ∀ x ∈ visited ++ [current], ∀ y ∈ adjacencyOf ms x,
            y ∈ visited ++ [current]
              ∨ y ∈ (((adjacencyOf ms current).filter
                  (fun n => !((visited ++ [current]).contains n))).reverse) ++ stack := by
          intro x hx y hy
          rcases List.mem_append.mp hx with hx | hx
          · rcases hsemi x hx y hy with h | h
            · exact Or.inl (List.mem_append_left _ h)
            · rcases List.mem_cons.mp h with rfl | h'
              · exact Or.inl (List.mem_append_right _ (by simp))
              · exact Or.inr (List.mem_append_right _ h')
          · rw [List.mem_singleton.mp hx] at hy
            by_cases hc : (visited ++ [current]).contains y = true
            · exact Or.inl (strContains_iff.mp hc)
            · refine Or.inr (List.mem_append_left _ (List.mem_reverse.mpr
                (List.mem_filter.mpr ⟨hy, ?_⟩)))
              simpa using hc
        obtain ⟨h1, h2, h3⟩ := ih _ _ _ hfuel' hsemi'
        refine ⟨fun z hz => h1 z (List.mem_append_left _ hz), ?_, h3⟩
        intro z hz
        rcases List.mem_cons.mp hz with rfl | hz'
        · exact h1 z (List.mem_append_right _ (by simp))
        · exact h2 z (List.mem_append_right _ hz')

/-- The edge test is symmetric. -/
theorem lcomEdge_symm (m1 m2 : MethodInfo) : lcomEdge m1 m2 = lcomEdge m2 m1 := by
  rw [Bool.eq_iff_iff]
  simp only [lcomEdge, Bool.or_eq_true, List.any_eq_true, strContains_iff]
  constructor
  · rintro ((⟨v, hv1, hv2⟩ | h) | h)
    · exact Or.inl (Or.inl ⟨v, hv2, hv1⟩)
    · exact Or.inr h
    · exact Or.inl (Or.inr h)
  · rintro ((⟨v, hv1, hv2⟩ | h) | h)
    · exact Or.inl (Or.inl ⟨v, hv2, hv1⟩)
    · exact Or.inr h
    · exact Or.inl (Or.inr h)

/-- Two distinct members of a list occur as a two-element sublist in one of
the two orders. -/
theorem sublist_pair_of_mem {a b : MethodInfo} : ∀ {l : List MethodInfo},
    a ∈ l → b ∈ l → a ≠ b →
    ([a, b]).Sublist l ∨ ([b, a]).Sublist l := by
  intro l
  induction l with
  | nil => intro ha; cases ha
  | cons x xs ih =>
    intro ha hb hne
    rcases List.mem_cons.mp ha with rfl | ha'
    · have hb' : b ∈ xs := by
        rcases List.mem_cons.mp hb with rfl | hb'
        · exact absurd rfl hne
        · exact hb'
      exact Or.inl ((List.singleton_sublist.mpr hb').cons₂ a)
    · rcases List.mem_cons.mp hb with rfl | hb'
      · exact Or.inr ((List.singleton_sublist.mpr ha').cons₂ b)
      · rcases ih ha' hb' hne with h | h
        · exact Or.inl (h.cons x)
        · exact Or.inr (h.cons x)

/-- Edge pairs are exactly the (either-order) name pairs of two methods at
distinct positions connected by `lcomEdge`. -/
theorem mem_edgePairs_iff {ms : List MethodInfo} {x y : String} :
    (x, y) ∈ edgePairs ms ↔
      ∃ m1 m2, ([m1, m2]).Sublist ms ∧ lcomEdge m1 m2 = true
        ∧ ((m1.name = x ∧ m2.name = y) ∨ (m2.name = x ∧ m1.name = y)) := by
  induction ms with
  | nil => simp [edgePairs]
  | cons mh rest ih =>
    simp only [edgePairs, List.mem_append]
    constructor
    · rintro (h | h)
      · simp only [List.mem_flatMap, List.mem_filter] at h
        obtain ⟨m2, ⟨hm2, hedge⟩, hp⟩ := h
        have hsub : ([mh, m2]).Sublist (mh :: rest) :=
          (List.singleton_sublist.mpr hm2).cons₂ mh
        simp only [List.mem_cons, List.mem_singleton, Prod.mk.injEq] at hp
        rcases hp with ⟨hx, hy⟩ | ⟨hx, hy⟩ | hfalse
        · exact ⟨mh, m2, hsub, hedge, Or.inl ⟨hx.symm, hy.symm⟩⟩
        · exact ⟨mh, m2, hsub, hedge, Or.inr ⟨hx.symm, hy.symm⟩⟩
        · cases hfalse
      · obtain ⟨m1, m2, hsub, hedge, hor⟩ := ih.mp h
        exact ⟨m1, m2, hsub.cons mh, hedge, hor⟩
    · rintro ⟨m1, m2, hsub, hedge, hor⟩
      cases hsub with
      | cons _ htail =>
        exact Or.inr (ih.mpr ⟨m1, m2, htail, hedge, hor⟩)
      | cons₂ htail2 =>
        left
        simp only [List.mem_flatMap, List.mem_filter]
        rename_i htail3
        refine ⟨m2, ⟨List.singleton_sublist.mp htail3, hedge⟩, ?_⟩
        rcases hor with ⟨hx, hy⟩ | ⟨hx, hy⟩
        · simp [hx, hy]
        · simp [hx, hy]

/-- Names of a group of methods. -/
def namesOf (g : List MethodInfo) : List String := g.map (fun m => m.name)

/-- The hypothesis of claim C1: the methods split into nonempty groups
(`flatten` of which is a permutation of the methods), no `lcomEdge` connects
two different groups, and each group is internally connected by `lcomEdge`
steps inside the group. -/
def IsGroupPartition (methods : List MethodInfo) (groups : List (List MethodInfo)) :
    Prop :=
  (∀ g ∈ groups, g ≠ [])
    ∧ methods.Perm groups.flatten
    ∧ groups.Pairwise (fun g1 g2 => ∀ m1 ∈ g1, ∀ m2 ∈ g2, lcomEdge m1 m2 = false)
    ∧ ∀ g ∈ groups, ∀ m1 ∈ g, ∀ m2 ∈ g,
        Relation.ReflTransGen (fun a b => a ∈ g ∧ b ∈ g ∧ lcomEdge a b = true) m1 m2

section PartitionLemmas

variable {ms : List MethodInfo} {groups : List (List MethodInfo)}

theorem partition_mem_group (hp : IsGroupPartition ms groups) {m : MethodInfo}
    (hm : m ∈ ms) : ∃ g ∈ groups, m ∈ g :=
  List.mem_flatten.mp (hp.2.1.subset hm)

theorem partition_group_mem (hp : IsGroupPartition ms groups) {g : List MethodInfo}
    (hg : g ∈ groups) {m : MethodInfo} (hm : m ∈ g) : m ∈ ms :=
  hp.2.1.symm.subset (List.mem_flatten.mpr ⟨g, hg, hm⟩)

theorem partition_name_inj (hnd : (ms.map (fun m => m.name)).Nodup)
    {a b : MethodInfo} (ha : a ∈ ms) (hb : b ∈ ms) (hab : a.name = b.name) :
    a = b :=
  List.inj_on_of_nodup_map hnd ha hb hab

theorem partition_flatten_nodup (hnd : (ms.map (fun m => m.name)).Nodup)
    (hp : IsGroupPartition ms groups) : groups.flatten.Nodup :=
  List.Nodup.of_map (fun m => m.name) ((hp.2.1.map (fun m => m.name)).nodup_iff.mp hnd)

theorem partition_group_unique (hnd : (ms.map (fun m => m.name)).Nodup)
    (hp : IsGroupPartition ms groups) {g g' : List MethodInfo}
    (hg : g ∈ groups) (hg' : g' ∈ groups) {m : MethodInfo}
    (hm : m ∈ g) (hm' : m ∈ g') : g = g' := by
  by_contra hne
  have hdisj := List.nodup_flatten.mp (partition_flatten_nodup hnd hp)
  have := hdisj.2.forall (fun a b hab => hab.symm) hg hg' hne
  exact this hm hm'

theorem partition_groups_nodup (hnd : (ms.map (fun m => m.name)).Nodup)
    (hp : IsGroupPartition ms groups) : groups.Nodup := by
  have hdisj := (List.nodup_flatten.mp (partition_flatten_nodup hnd hp)).2
  refine hdisj.imp_of_mem ?_
  intro a b ha hb hd
  intro hab
  subst hab
  obtain ⟨m, hm⟩ := List.exists_mem_of_ne_nil a (hp.1 a ha)
  exact hd hm hm

/-- A neighbour in the name graph of a name from group `g` stays in `g`. -/
theorem partition_no_escape (hnd : (ms.map (fun m => m.name)).Nodup)
    (hp : IsGroupPartition ms groups) {g : List MethodInfo} (hg : g ∈ groups)
    {x y : String} (hx : x ∈ namesOf g) (hy : y ∈ adjacencyOf ms x) :
    y ∈ namesOf g := by
  obtain ⟨mg, hmg, hmgx⟩ := List.mem_map.mp hx
  obtain ⟨m1, m2, hsub, hedge, hor⟩ := mem_edgePairs_iff.mp (mem_adjacencyOf.mp hy)
  have hm1 : m1 ∈ ms := hsub.subset (by simp)
  have hm2 : m2 ∈ ms := hsub.subset (by simp)
  have hmgms : mg ∈ ms := partition_group_mem hp hg hmg
  -- mx: the endpoint named x; my: the other endpoint, named y
  rcases hor with ⟨hx1, hy2⟩ | ⟨hx2, hy1⟩
  · -- m1.name = x, m2.name = y
    have : m1 = mg := partition_name_inj hnd hm1 hmgms (by rw [hx1, hmgx])
    subst this
    obtain ⟨g', hg', hm2g'⟩ := partition_mem_group hp hm2
    by_cases hgg : g = g'
    · subst hgg
      exact List.mem_map.mpr ⟨m2, hm2g', hy2⟩
    · have hsymm : Symmetric (fun g1 g2 : List MethodInfo =>
          ∀ m1 ∈ g1, ∀ m2 ∈ g2, lcomEdge m1 m2 = false) := by
        intro a b hab mb hmb ma hma
        rw [lcomEdge_symm]
        exact hab ma hma mb hmb
      have hno := hp.2.2.1.forall hsymm hg hg' hgg
      rw [hno m1 hmg m2 hm2g'] at hedge
      cases hedge
  · -- m2.name = x, m1.name = y
    have : m2 = mg := partition_name_inj hnd hm2 hmgms (by rw [hx2, hmgx])
    subst this
    obtain ⟨g', hg', hm1g'⟩ := partition_mem_group hp hm1
    by_cases hgg : g = g'
    · subst hgg
      exact List.mem_map.mpr ⟨m1, hm1g', hy1⟩
    · have hsymm : Symmetric (fun g1 g2 : List MethodInfo =>
          ∀ m1 ∈ g1, ∀ m2 ∈ g2, lcomEdge m1 m2 = false) := by
        intro a b hab mb hmb ma hma
        rw [lcomEdge_symm]
        exact hab ma hma mb hmb
      have hno := hp.2.2.1.forall hsymm hg hg' hgg
      rw [lcomEdge_symm, hno m2 hmg m1 hm1g'] at hedge
      cases hedge

/-- Reachability from a group member's name stays inside the group names. -/
theorem partition_reach_subset (hnd : (ms.map (fun m => m.name)).Nodup)
    (hp : IsGroupPartition ms groups) {g : List MethodInfo} (hg : g ∈ groups)
    {m : MethodInfo} (hm : m ∈ g) {z : String}
    (hz : lcomReach ms m.name z) : z ∈ namesOf g := by
  induction hz with
  | refl => exact List.mem_map.mpr ⟨m, hm, rfl⟩
  | tail hab hbc ih => exact partition_no_escape hnd hp hg ih hbc

/-- Every group name is reachable from any group member's name. -/
theorem partition_reach_all (hnd : (ms.map (fun m => m.name)).Nodup)
    (hp : IsGroupPartition ms groups) {g : List MethodInfo} (hg : g ∈ groups)
    {m : MethodInfo} (hm : m ∈ g) {z : String} (hz : z ∈ namesOf g) :
    lcomReach ms m.name z := by
  obtain ⟨m2, hm2, rfl⟩ := List.mem_map.mp hz
  have hconn := hp.2.2.2 g hg m hm m2 hm2
  clear hz hm2
  induction hconn with
  | refl => exact Relation.ReflTransGen.refl
  | tail hab hbc ih =>
    next b c =>
      obtain ⟨hbg, hcg, hedge⟩ := hbc
      by_cases hbc2 : b = c
      · rw [← hbc2]; exact ih
      · have hbms : b ∈ ms := partition_group_mem hp hg hbg
        have hcms : c ∈ ms := partition_group_mem hp hg hcg
        have hpair := sublist_pair_of_mem hbms hcms hbc2
        have hstep : c.name ∈ adjacencyOf ms b.name := by
          rw [mem_adjacencyOf, mem_edgePairs_iff]
          rcases hpair with h | h
          · exact ⟨b, c, h, hedge, Or.inl ⟨rfl, rfl⟩⟩
          · exact ⟨c, b, h, by rw [← lcomEdge_symm]; exact hedge, Or.inr ⟨rfl, rfl⟩⟩
        exact Relation.ReflTransGen.tail ih hstep

end PartitionLemmas

/-- A reachability-closed set absorbs reachable nodes. -/
theorem reach_mem_of_closed {ms : List MethodInfo} {S : List String}
    (hclosed : ∀ x ∈ S, ∀ y ∈ adjacencyOf ms x, y ∈ S) {x z : String}
    (hx : x ∈ S) (hr : lcomReach ms x z) : z ∈ S := by
  induction hr with
  | refl => exact hx
  | tail hab hbc ih => exact hclosed _ ih _ hbc

/-- The visited set is exactly the union of names of touched groups. -/
def VisitedIs (visited : List String) (touched : List (List MethodInfo)) : Prop :=
  ∀ x, x ∈ visited ↔ ∃ g ∈ touched, x ∈ namesOf g

/-- Main counting argument: every outer-loop iteration either skips an
already-covered method or visits exactly one whole untouched group, so the
number of components produced is the number of groups. -/
theorem componentsLoop_count (ms : List MethodInfo) (groups : List (List MethodInfo))
    (hnd : (ms.map (fun m => m.name)).Nodup)
    (hp : IsGroupPartition ms groups) :
    ∀ (todo : List MethodInfo) (visited : List String) (comps : List (List String))
      (touched : List (List MethodInfo)),
      (∀ m ∈ todo, m ∈ ms) →
      VisitedIs visited touched →
      (∀ g ∈ touched, g ∈ groups) →
      touched.Nodup →
      (∀ g ∈ groups, g ∈ touched ∨ ∃ m ∈ g, m ∈ todo) →
      (componentsLoop (adjacencyOf ms) (lcomFuel ms) todo visited comps).2.length
          + touched.length
        = comps.length + groups.length := by
  intro todo
  induction todo with
  | nil =>
    intro visited comps touched htodo hvis hsub hndt hcover
    have hcover' : ∀ g ∈ groups, g ∈ touched := by
      intro g hg
      rcases hcover g hg with h | ⟨m, _, hmem⟩
      · exact h
      · cases hmem
    have hle1 : touched.length ≤ groups.length :=
      (List.subperm_of_subset hndt hsub).length_le
    have hle2 : groups.length ≤ touched.length :=
      (List.subperm_of_subset (partition_groups_nodup hnd hp) hcover').length_le
    simp only [componentsLoop]
    omega
  | cons m rest ih =>
    intro visited comps touched htodo hvis hsub hndt hcover
    have hm_ms : m ∈ ms := htodo m (List.mem_cons_self ..)
    obtain ⟨gm, hgm, hmgm⟩ := partition_mem_group hp hm_ms
    have hmname : m.name ∈ namesOf gm := List.mem_map.mpr ⟨m, hmgm, rfl⟩
    -- uniqueness helper: any group of `groups` containing m is gm
    have huniq : ∀ g' ∈ groups, m ∈ g' → g' = gm := fun g' hg' hmg' =>
      partition_group_unique hnd hp hg' hgm hmg' hmgm
    simp only [componentsLoop]
    split
    · next hcont =>
      -- m.name already visited: gm is already touched
      have hmv : m.name ∈ visited := strContains_iff.mp hcont
      obtain ⟨g, hgt, hxg⟩ := (hvis m.name).mp hmv
      obtain ⟨m', hm'g, hm'n⟩ := List.mem_map.mp hxg
      have hm'ms : m' ∈ ms := partition_group_mem hp (hsub g hgt) hm'g
      have : m' = m := partition_name_inj hnd hm'ms hm_ms hm'n
      subst this
      have hgmt : gm ∈ touched := by
        have := huniq g (hsub g hgt) hm'g
        rw [← this]; exact hgt
      refine ih visited comps touched (fun m' hm' => htodo m' (List.mem_cons_of_mem _ hm'))
        hvis hsub hndt ?_
      intro g' hg'
      rcases hcover g' hg' with h | ⟨m'', hm''g', hm''⟩
      · exact Or.inl h
      · rcases List.mem_cons.mp hm'' with rfl | h'
        · exact Or.inl (by rw [huniq g' hg' hm''g']; exact hgmt)
        · exact Or.inr ⟨m'', hm''g', h'⟩
    · next hcont =>
      have hmnv : m.name ∉ visited := fun h => hcont (strContains_iff.mpr h)
      have hgmnt : gm ∉ touched := fun h => hmnv ((hvis m.name).mpr ⟨gm, h, hmname⟩)
      -- the traversal from m.name
      have hfuelOK : dfsBound ms [m.name] visited ≤ lcomFuel ms := by
        simp only [dfsBound, lcomFuel, List.length_cons, List.length_nil]
        have hule : ((ms.map (fun m => m.name)).filter
            (fun x => !(visited.contains x))).length ≤ ms.length := by
          calc _ ≤ (ms.map (fun m => m.name)).length := List.length_filter_le _ _
            _ = ms.length := List.length_map ..
        have := Nat.mul_le_mul_right ((edgePairs ms).length + 1) hule
        omega
      have hsemi : ∀ x ∈ visited, ∀ y ∈ adjacencyOf ms x,
          y ∈ visited ∨ y ∈ [m.name] := by
        intro x hx y hy
        obtain ⟨g, hgt, hxg⟩ := (hvis x).mp hx
        exact Or.inl ((hvis y).mpr
          ⟨g, hgt, partition_no_escape hnd hp (hsub g hgt) hxg hy⟩)
      obtain ⟨h1, h2, h3⟩ :=
        dfsLoop_complete ms (lcomFuel ms) [m.name] visited [] hfuelOK hsemi
      have hchar : ∀ z,
          z ∈ (dfsLoop (adjacencyOf ms) (lcomFuel ms) [m.name] visited []).1
            ↔ (z ∈ visited ∨ z ∈ namesOf gm) := by
        intro z
        constructor
        · intro hz
          rcases dfsLoop_sound ms (lcomFuel ms) [m.name] visited [] z hz with h | ⟨x, hx, hr⟩
          · exact Or.inl h
          · rw [List.mem_singleton.mp hx] at hr
            exact Or.inr (partition_reach_subset hnd hp hgm hmgm hr)
        · intro hz
          rcases hz with h | h
          · exact h1 z h
          · exact reach_mem_of_closed h3 (h2 m.name (by simp))
              (partition_reach_all hnd hp hgm hmgm h)
      have hIH := ih (dfsLoop (adjacencyOf ms) (lcomFuel ms) [m.name] visited []).1
        (comps ++ [(dfsLoop (adjacencyOf ms) (lcomFuel ms) [m.name] visited []).2])
        (touched ++ [gm])
        (fun m' hm' => htodo m' (List.mem_cons_of_mem _ hm'))
        (by
          intro x
          rw [hchar x]
          constructor
          · rintro (h | h)
            · obtain ⟨g, hgt, hxg⟩ := (hvis x).mp h
              exact ⟨g, List.mem_append_left _ hgt, hxg⟩
            · exact ⟨gm, List.mem_append_right _ (by simp), h⟩
          · rintro ⟨g, hgt, hxg⟩
            rcases List.mem_append.mp hgt with h | h
            · exact Or.inl ((hvis x).mpr ⟨g, h, hxg⟩)
            · rw [List.mem_singleton.mp h] at hxg
              exact Or.inr hxg)
        (by
          intro g hg
          rcases List.mem_append.mp hg with h | h
          · exact hsub g h
          · rw [List.mem_singleton.mp h]; exact hgm)
        (by
          rw [List.nodup_append]
          refine ⟨hndt, List.nodup_singleton _, ?_⟩
          intro a ha hb
          rw [List.mem_singleton.mp hb] at ha
          exact hgmnt ha)
        (by
          intro g' hg'
          rcases hcover g' hg' with h | ⟨m'', hm''g', hm''⟩
          · exact Or.inl (List.mem_append_left _ h)
          · rcases List.mem_cons.mp hm'' with rfl | h'
            · exact Or.inl (List.mem_append_right _
                (by rw [huniq g' hg' hm''g']; simp))
            · exact Or.inr ⟨m'', hm''g', h'⟩)
      simp only [List.length_append, List.length_cons, List.length_nil] at hIH ⊢
      omega

/-- C1 (amended): when the qualifying methods have pairwise distinct names
and form at least one group, `lcom4Value` is exactly the number of groups. -/
theorem claim_C1_lcom4_counts_groups (classInfo : ClassInfo) (groups : List (List MethodInfo))
    (hnd : ((qualifyingMethods classInfo).map (fun m => m.name)).Nodup)
    (hne : groups ≠ [])
    (hp : IsGroupPartition (qualifyingMethods classInfo) groups) :
    (calculateLCOM4 classInfo).lcom4Value = groups.length := by
  by_cases hlen : (qualifyingMethods classInfo).length ≤ 1
  · have hv : (calculateLCOM4 classInfo).lcom4Value = 1 := by
      simp [calculateLCOM4, hlen]
    rw [hv]
    -- groups must be a single one-element group
    have hflat : (qualifyingMethods classInfo).length = groups.flatten.length :=
      hp.2.1.length_eq
    cases hgs : groups with
    | nil => exact absurd hgs hne
    | cons g gs =>
      have hgne : g ≠ [] := hp.1 g (by rw [hgs]; simp)
      have hglen : 1 ≤ g.length := by
        cases g with
        | nil => exact absurd rfl hgne
        | cons _ _ => simp
      have hflatlen : g.length + (gs.flatten).length ≤ 1 := by
        rw [hgs] at hflat
        simp only [List.flatten_cons, List.length_append] at hflat
        omega
      have hgs_empty : gs = [] := by
        cases hgs2 : gs with
        | nil => rfl
        | cons g2 gs2 =>
          have hg2ne : g2 ≠ [] := hp.1 g2 (by rw [hgs, hgs2]; simp)
          obtain ⟨m2, hm2⟩ := List.exists_mem_of_ne_nil g2 hg2ne
          have : m2 ∈ gs.flatten := by
            rw [hgs2]
            exact List.mem_flatten.mpr ⟨g2, by simp, hm2⟩
          have : 1 ≤ (gs.flatten).length := by
            cases hflat3 : gs.flatten with
            | nil => rw [hflat3] at this; cases this
            | cons _ _ => simp
          omega
      rw [hgs_empty]
      simp
  · have hv : (calculateLCOM4 classInfo).lcom4Value =
        (componentsLoop (adjacencyOf (qualifyingMethods classInfo))
          (lcomFuel (qualifyingMethods classInfo)) (qualifyingMethods classInfo)
          [] []).2.length := by
      simp [calculateLCOM4, hlen]
    rw [hv]
    have := componentsLoop_count (qualifyingMethods classInfo) groups hnd hp
      (qualifyingMethods classInfo) [] [] []
      (fun m hm => hm)
      (by intro x; simp)
      (by simp)
      List.nodup_nil
      (by
        intro g hg
        obtain ⟨m, hm⟩ := List.exists_mem_of_ne_nil g (hp.1 g hg)
        exact Or.inr ⟨m, hm, partition_group_mem hp hg hm⟩)
    simpa using this

/-- Counterexample for C1 as stated: a class with no qualifying methods is
partitioned into zero groups, yet `lcom4Value` is 1, not 0. -/
theorem claim_C1_counterexample :
    IsGroupPartition (qualifyingMethods ⟨"Empty", 0, 0, [], []⟩) []
      ∧ (calculateLCOM4 ⟨"Empty", 0, 0, [], []⟩).lcom4Value
          ≠ ([] : List (List MethodInfo)).length := by
  refine ⟨⟨by simp, by simp [qualifyingMethods], by simp, by simp⟩, by decide⟩

/-- Concrete two-group class used by the C1 witness: methods `a`, `b`
share variable `x`; method `c` uses only `y`. -/
def lcomWitnessA : MethodInfo := ⟨"a", 1, 1, ["x"], []⟩
def lcomWitnessB : MethodInfo := ⟨"b", 2, 2, ["x"], []⟩
def lcomWitnessC : MethodInfo := ⟨"c", 3, 3, ["y"], []⟩
def lcomWitnessClass : ClassInfo :=
  ⟨"K", 0, 3, [lcomWitnessA, lcomWitnessB, lcomWitnessC], ["x", "y"]⟩
def lcomWitnessGroups : List (List MethodInfo) :=
  [[lcomWitnessA, lcomWitnessB], [lcomWitnessC]]

/-- Witness for the amended C1 at a concrete two-group class. -/
theorem claim_C1_lcom4_counts_groups_witness :
    ((qualifyingMethods lcomWitnessClass).map (fun m => m.name)).Nodup
      ∧ lcomWitnessGroups ≠ []
      ∧ IsGroupPartition (qualifyingMethods lcomWitnessClass) lcomWitnessGroups
      ∧ (calculateLCOM4 lcomWitnessClass).lcom4Value = lcomWitnessGroups.length := by
  have hp : IsGroupPartition (qualifyingMethods lcomWitnessClass) lcomWitnessGroups := by
    refine ⟨by decide, by decide, by decide, ?_⟩
    intro g hg m1 h1 m2 h2
    fin_cases hg <;> fin_cases h1 <;> fin_cases h2 <;>
      first
        | exact Relation.ReflTransGen.refl
        | exact Relation.ReflTransGen.single ⟨by decide, by decide, by decide⟩
  exact ⟨by decide, by decide, hp,
    claim_C1_lcom4_counts_groups lcomWitnessClass lcomWitnessGroups (by decide) (by decide) hp⟩

/-! ## Theorem C8: range invariants of the extractors -/

/-- The range facts claim C8 asserts for one emitted class record: a
well-ordered class range, methods inside it, and pairwise-disjoint
(in fact strictly ordered) method ranges. -/
def ClassRangesOK (c : ClassInfo) : Prop :=
  c.startLine ≤ c.endLine
    ∧ (∀ m ∈ c.methods,
        c.startLine ≤ m.startLine ∧ m.startLine ≤ m.endLine ∧ m.endLine ≤ c.endLine)
    ∧ c.methods.Pairwise (fun m1 m2 => m1.endLine < m2.startLine)

def pyMethodsOK (i : Nat) (c : ClassInfo) : Prop :=
  (∀ m ∈ c.methods, c.startLine < m.startLine ∧ m.startLine ≤ m.endLine ∧ m.endLine < i)
    ∧ c.methods.Pairwise (fun m1 m2 => m1.endLine < m2.startLine)

def PyInv (i : Nat) (s : PyState) : Prop :=
  (∀ c ∈ s.classes, ClassRangesOK c)
    ∧ (s.currentClass = none → s.currentMethod = none)
    ∧ (∀ c, s.currentClass = some c →
        c.startLine < i ∧ pyMethodsOK i c
          ∧ (∀ m, s.currentMethod = some m →
              c.startLine < m.startLine ∧ m.startLine ≤ m.endLine ∧ m.endLine < i
                ∧ ∀ m' ∈ c.methods, m'.endLine < m.startLine))

theorem pyFlush_bounds {i : Nat} {c : ClassInfo} {om : Option MethodInfo}
    (hc : c.startLine < i) (hm : pyMethodsOK i c)
    (homok : ∀ m, om = some m →
      c.startLine < m.startLine ∧ m.startLine ≤ m.endLine ∧ m.endLine < i
        ∧ ∀ m' ∈ c.methods, m'.endLine < m.startLine) :
    pyMethodsOK i (flushMethod c om)
      ∧ (flushMethod c om).startLine = c.startLine
      ∧ (∀ m' ∈ (flushMethod c om).methods, m'.endLine < i) := by
  obtain ⟨hb, hpw⟩ := hm
  cases om with
  | none =>
    refine ⟨⟨hb, hpw⟩, rfl, fun m' hm' => (hb m' hm').2.2⟩
  | some m0 =>
    obtain ⟨g1, g2, g3, g4⟩ := homok m0 rfl
    simp only [flushMethod]
    refine ⟨⟨?_, ?_⟩, by trivial, ?_⟩
    · intro m hmem
      simp only [List.mem_append, List.mem_singleton] at hmem
      rcases hmem with hmem | rfl
      · exact hb m hmem
      · exact ⟨g1, g2, g3⟩
    · rw [List.pairwise_append]
      exact ⟨hpw, List.pairwise_singleton .., fun a ha b hb2 => by
        rw [List.mem_singleton.mp hb2]; exact g4 a ha⟩
    · intro m' hm'
      simp only [List.mem_append, List.mem_singleton] at hm'
      rcases hm' with hm' | rfl
      · exact (hb m' hm').2.2
      · exact g3

theorem pyClose_ok {i : Nat} {c : ClassInfo} {om : Option MethodInfo}
    (hc : c.startLine < i) (hm : pyMethodsOK i c)
    (homok : ∀ m, om = some m →
      c.startLine < m.startLine ∧ m.startLine ≤ m.endLine ∧ m.endLine < i
        ∧ ∀ m' ∈ c.methods, m'.endLine < m.startLine) :
    ClassRangesOK { flushMethod c om with endLine := i - 1 } := by
  obtain ⟨⟨hb, hpw⟩, hstart, hend⟩ := pyFlush_bounds hc hm homok
  refine ⟨?_, ?_, by simpa using hpw⟩
  · simp only [hstart]
    omega
  · intro m hmem
    simp only at hmem
    obtain ⟨h1, h2, h3⟩ := hb m hmem
    have h4 := hend m hmem
    rw [hstart] at h1
    exact ⟨by simp; omega, h2, by simp; omega⟩

theorem pyStep_inv {i : Nat} {line : String} {s : PyState} (h : PyInv i s) :
    PyInv (i + 1) (pyStep i line s) := by
  obtain ⟨hcls, hnone, hopen⟩ := h
  simp only [pyStep]
  split
  · -- class-declaration line
    split
    · -- a class was open: it is pushed
      next c0 hc =>
      obtain ⟨h1, h2, h3⟩ := hopen c0 hc
      refine ⟨?_, by simp, ?_⟩
      · intro c hcc
        simp only [List.mem_append, List.mem_singleton] at hcc
        rcases hcc with hcc | rfl
        · exact hcls c hcc
        · exact pyClose_ok h1 h2 h3
      · intro c hcc
        simp only [Option.some_inj] at hcc
        subst hcc
        exact ⟨by simp, ⟨by simp, by simp⟩, by simp⟩
    · -- no open class
      next hc =>
      refine ⟨by simpa using hcls, by simp, ?_⟩
      intro c hcc
      simp only [Option.some_inj] at hcc
      subst hcc
      exact ⟨by simp, ⟨by simp, by simp⟩, by simp⟩
  · -- not a class line
    split
    · -- no open class: state unchanged
      next hc =>
      refine ⟨hcls, fun _ => hnone hc, ?_⟩
      intro c hcc
      rw [hc] at hcc
      cases hcc
    · next c0 hc =>
      obtain ⟨h1, h2, h3⟩ := hopen c0 hc
      split
      · -- dedent: class closed
        refine ⟨?_, fun _ => rfl, ?_⟩
        · intro c hcc
          simp only [List.mem_append, List.mem_singleton] at hcc
          rcases hcc with hcc | rfl
          · exact hcls c hcc
          · exact pyClose_ok h1 h2 h3
        · intro c hcc
          cases hcc
      · split
        · -- method-declaration line
          next mname hmm =>
          obtain ⟨⟨fb, fpw⟩, fstart, fend⟩ := pyFlush_bounds h1 h2 h3
          refine ⟨hcls, by simp, ?_⟩
          intro c hcc
          simp only [Option.some_inj] at hcc
          subst hcc
          refine ⟨by rw [fstart]; omega, ⟨?_, fpw⟩, ?_⟩
          · intro m hmem
            obtain ⟨g1, g2, g3⟩ := fb m hmem
            exact ⟨g1, g2, by omega⟩
          · intro m hmeq
            simp only [Option.some_inj] at hmeq
            subst hmeq
            refine ⟨by rw [fstart]; simpa using h1, by simp, by simp, ?_⟩
            intro m' hm'
            simpa using fend m' hm'
        · split
          · -- the current method is open
            next m0 hcm =>
            obtain ⟨g1, g2, g3, g4⟩ := h3 m0 hcm
            split
            · -- body line: endLine updated, line scanned
              next hind =>
              obtain ⟨f1, f2, f3, f4, f5, f6, f7⟩ :=
                pyScanLine_fields line { m0 with endLine := i } c0
              refine ⟨hcls, by simp, ?_⟩
              intro c hcc
              simp only [Option.some_inj] at hcc
              subst hcc
              refine ⟨by rw [f5]; omega, ⟨?_, by rw [f7]; exact h2.2⟩, ?_⟩
              · intro m hmem
                rw [f7] at hmem
                obtain ⟨k1, k2, k3⟩ := h2.1 m hmem
                rw [f5]
                exact ⟨k1, k2, by omega⟩
              · intro m hmeq
                simp only [Option.some_inj] at hmeq
                subst hmeq
                rw [f5, f2, f3, f7]
                simp only
                refine ⟨g1, by omega, by omega, g4⟩
            · -- not a body line: state unchanged
              next hind =>
              refine ⟨hcls, by simp [hc], ?_⟩
              intro c hcc
              simp only [hc, Option.some_inj] at hcc
              subst hcc
              refine ⟨by omega, ⟨?_, h2.2⟩, ?_⟩
              · intro m hmem
                obtain ⟨k1, k2, k3⟩ := h2.1 m hmem
                exact ⟨k1, k2, by omega⟩
              · intro m hmeq
                rw [hcm] at hmeq
                simp only [Option.some_inj] at hmeq
                subst hmeq
                exact ⟨g1, g2, by omega, g4⟩
          · -- no open method: state unchanged
            next hcm =>
            refine ⟨hcls, by simp [hc], ?_⟩
            intro c hcc
            simp only [hc, Option.some_inj] at hcc
            subst hcc
            refine ⟨by omega, ⟨?_, h2.2⟩, ?_⟩
            · intro m hmem
              obtain ⟨k1, k2, k3⟩ := h2.1 m hmem
              exact ⟨k1, k2, by omega⟩
            · intro m hmeq
              rw [hcm] at hmeq
              cases hmeq

/-- The invariant transports along the whole run. -/
theorem pyRun_inv : ∀ (ls : List String) (i : Nat) (s : PyState),
    PyInv i s → PyInv (i + ls.length) (pyRun i ls s) := by
  intro ls
  induction ls with
  | nil => intro i s h; simpa [pyRun] using h
  | cons l ls ih =>
    intro i s h
    have heq : i + (l :: ls).length = (i + 1) + ls.length := by
      simp [List.length_cons]; omega
    rw [heq]
    simp only [pyRun]
    exact ih (i + 1) (pyStep i l s) (pyStep_inv h)

/-- Every record emitted by the Python parser has well-formed ranges. -/
theorem parsePythonClasses_ok (lines : List String) :
    ∀ c ∈ parsePythonClasses lines, ClassRangesOK c := by
  have h0 : PyInv 0 ⟨[], none, none, 0, 0⟩ := ⟨by simp, fun _ => rfl, by simp⟩
  have h := pyRun_inv lines 0 _ h0
  simp only [Nat.zero_add] at h
  obtain ⟨hcls, hnone, hopen⟩ := h
  intro c hc
  simp only [parsePythonClasses] at hc
  split at hc
  · next c0 heq =>
    obtain ⟨h1, h2, h3⟩ := hopen c0 heq
    rcases List.mem_append.mp hc with hmem | hmem
    · exact hcls c hmem
    · rw [List.mem_singleton.mp hmem]
      exact pyClose_ok h1 h2 h3
  · exact hcls c hc

/-- Fields of the method and class untouched by one TypeScript scan step. -/
theorem tsRefStep_fields (line : String) (mc : MethodInfo × ClassInfo) (v : String) :
    (tsRefStep line mc v).1.name = mc.1.name
      ∧ (tsRefStep line mc v).1.startLine = mc.1.startLine
      ∧ (tsRefStep line mc v).1.endLine = mc.1.endLine
      ∧ (tsRefStep line mc v).2.name = mc.2.name
      ∧ (tsRefStep line mc v).2.startLine = mc.2.startLine
      ∧ (tsRefStep line mc v).2.endLine = mc.2.endLine
      ∧ (tsRefStep line mc v).2.methods = mc.2.methods := by
  simp only [tsRefStep]
  split <;> simp

/-- Fields untouched by the whole TypeScript body-line scan fold. -/
theorem tsScanFold_fields (line : String) (names : List String) :
    ∀ mc : MethodInfo × ClassInfo,
      (names.foldl (tsRefStep line) mc).1.name = mc.1.name
        ∧ (names.foldl (tsRefStep line) mc).1.startLine = mc.1.startLine
        ∧ (names.foldl (tsRefStep line) mc).1.endLine = mc.1.endLine
        ∧ (names.foldl (tsRefStep line) mc).2.name = mc.2.name
        ∧ (names.foldl (tsRefStep line) mc).2.startLine = mc.2.startLine
        ∧ (names.foldl (tsRefStep line) mc).2.endLine = mc.2.endLine
        ∧ (names.foldl (tsRefStep line) mc).2.methods = mc.2.methods := by
  induction names with
  | nil => intro mc; simp
  | cons v vs ih =>
    intro mc
    simp only [List.foldl_cons]
    obtain ⟨h1, h2, h3, h4, h5, h6, h7⟩ := ih (tsRefStep line mc v)
    obtain ⟨g1, g2, g3, g4, g5, g6, g7⟩ := tsRefStep_fields line mc v
    exact ⟨h1.trans g1, h2.trans g2, h3.trans g3, h4.trans g4, h5.trans g5,
      h6.trans g6, h7.trans g7⟩

/-- Fields untouched by `tsScanLine`. -/
theorem tsScanLine_fields (line : String) (m : MethodInfo) (c : ClassInfo) :
    (tsScanLine line m c).1.name = m.name
      ∧ (tsScanLine line m c).1.startLine = m.startLine
      ∧ (tsScanLine line m c).1.endLine = m.endLine
      ∧ (tsScanLine line m c).2.name = c.name
      ∧ (tsScanLine line m c).2.startLine = c.startLine
      ∧ (tsScanLine line m c).2.endLine = c.endLine
      ∧ (tsScanLine line m c).2.methods = c.methods :=
  tsScanFold_fields line _ (m, c)

/-- What the method-open sub-step guarantees for the invariant. -/
theorem tsMethodOpenStep_spec (i : Nat) (trimmed : String) (bc msb : Int)
    (c0 : ClassInfo) (cur : Option MethodInfo) (start : Nat)
    (hc0 : c0.startLine = start)
    (hsi : start ≤ i)
    (hmb : ∀ m' ∈ c0.methods,
      start ≤ m'.startLine ∧ m'.startLine ≤ m'.endLine ∧ m'.endLine < i)
    (hpw : c0.methods.Pairwise (fun m1 m2 => m1.endLine < m2.startLine))
    (hcur : ∀ x, cur = some x →
      msb = 1 ∧ start ≤ x.startLine ∧ x.startLine ≤ x.endLine ∧ x.endLine < i
        ∧ ∀ m' ∈ c0.methods, m'.endLine < x.startLine) :
    (tsMethodOpenStep i trimmed bc 0 msb c0 cur).1.startLine = start
      ∧ (∀ m' ∈ (tsMethodOpenStep i trimmed bc 0 msb c0 cur).1.methods,
          start ≤ m'.startLine ∧ m'.startLine ≤ m'.endLine ∧ m'.endLine < i)
      ∧ (tsMethodOpenStep i trimmed bc 0 msb c0 cur).1.methods.Pairwise
          (fun m1 m2 => m1.endLine < m2.startLine)
      ∧ (∀ m, (tsMethodOpenStep i trimmed bc 0 msb c0 cur).2.1 = some m →
          (tsMethodOpenStep i trimmed bc 0 msb c0 cur).2.2 = 1
            ∧ start ≤ m.startLine ∧ m.startLine ≤ m.endLine ∧ m.endLine ≤ i
            ∧ (∀ m' ∈ (tsMethodOpenStep i trimmed bc 0 msb c0 cur).1.methods,
                m'.endLine < m.startLine)
            ∧ ((cur = some m ∧ m.endLine < i) ∨ (m.startLine = i ∧ bc = 1))) := by
  simp only [tsMethodOpenStep]
  split
  · split
    · next hguard =>
      obtain ⟨-, hbc⟩ := hguard
      cases cur with
      | none =>
        simp only [flushMethod]
        refine ⟨hc0, hmb, hpw, ?_⟩
        intro m hm
        simp only [Option.some_inj] at hm
        subst hm
        refine ⟨by omega, ?_, ?_, ?_, ?_, Or.inr ⟨rfl, by omega⟩⟩
        · show start ≤ i; exact hsi
        · show i ≤ i; exact le_rfl
        · show i ≤ i; exact le_rfl
        · intro m' hm'
          show m'.endLine < i
          exact (hmb m' hm').2.2
      | some x =>
        obtain ⟨g0, g1, g2, g3, g4⟩ := hcur x rfl
        simp only [flushMethod]
        refine ⟨hc0, ?_, ?_, ?_⟩
        · intro m' hm'
          have hm2 : m' ∈ c0.methods ++ [x] := hm'
          rcases List.mem_append.mp hm2 with h | h
          · exact hmb m' h
          · rw [List.mem_singleton.mp h]; exact ⟨g1, g2, g3⟩
        · show (c0.methods ++ [x]).Pairwise (fun m1 m2 => m1.endLine < m2.startLine)
          rw [List.pairwise_append]
          exact ⟨hpw, List.pairwise_singleton .., fun a ha b hb => by
            rw [List.mem_singleton.mp hb]; exact g4 a ha⟩
        · intro m hm
          simp only [Option.some_inj] at hm
          subst hm
          refine ⟨by omega, ?_, ?_, ?_, ?_, Or.inr ⟨rfl, by omega⟩⟩
          · show start ≤ i; exact hsi
          · show i ≤ i; exact le_rfl
          · show i ≤ i; exact le_rfl
          · intro m' hm'
            have hm2 : m' ∈ c0.methods ++ [x] := hm'
            show m'.endLine < i
            rcases List.mem_append.mp hm2 with h | h
            · exact (hmb m' h).2.2
            · rw [List.mem_singleton.mp h]; exact g3
    · refine ⟨hc0, hmb, hpw, ?_⟩
      intro m hm
      obtain ⟨g0, g1, g2, g3, g4⟩ := hcur m hm
      exact ⟨g0, g1, g2, by omega, g4, Or.inl ⟨hm, g3⟩⟩
  · refine ⟨hc0, hmb, hpw, ?_⟩
    intro m hm
    obtain ⟨g0, g1, g2, g3, g4⟩ := hcur m hm
    exact ⟨g0, g1, g2, by omega, g4, Or.inl ⟨hm, g3⟩⟩

/-- What the body-line sub-step guarantees: the class's start line and
method list are untouched, and an open method only has its end line bumped
to the current line. -/
theorem tsBodyStep_spec (i : Nat) (line : String) (bc msb : Int) (c1 : ClassInfo)
    (cur : Option MethodInfo) :
    (tsBodyStep i line bc msb c1 cur).1.startLine = c1.startLine
      ∧ (tsBodyStep i line bc msb c1 cur).1.methods = c1.methods
      ∧ (∀ m, (tsBodyStep i line bc msb c1 cur).2 = some m →
          ∃ m0, cur = some m0 ∧ m.startLine = m0.startLine
            ∧ (m.endLine = m0.endLine ∨ m.endLine = i)) := by
  simp only [tsBodyStep]
  split
  · next m0 =>
    split
    · obtain ⟨f1, f2, f3, f4, f5, f6, f7⟩ :=
        tsScanLine_fields line { m0 with endLine := i } c1
      refine ⟨f5, f7, ?_⟩
      intro m hm
      simp only [Option.some_inj] at hm
      subst hm
      exact ⟨m0, rfl, f2, Or.inr f3⟩
    · refine ⟨rfl, rfl, ?_⟩
      intro m hm
      simp only [Option.some_inj] at hm
      subst hm
      exact ⟨m0, rfl, rfl, Or.inl rfl⟩
  · refine ⟨rfl, rfl, ?_⟩
    intro m hm
    cases hm

/-- What the method-close sub-step guarantees. -/
theorem tsMethodCloseStep_spec (bc msb : Int) (closes : Nat) (c2 : ClassInfo)
    (cur : Option MethodInfo) :
    (tsMethodCloseStep bc msb closes c2 cur).1.startLine = c2.startLine
      ∧ ((tsMethodCloseStep bc msb closes c2 cur).1.methods = c2.methods
          ∨ ∃ m, cur = some m
              ∧ (tsMethodCloseStep bc msb closes c2 cur).1.methods = c2.methods ++ [m]
              ∧ (tsMethodCloseStep bc msb closes c2 cur).2 = none)
      ∧ (∀ m, (tsMethodCloseStep bc msb closes c2 cur).2 = some m →
          cur = some m ∧ (tsMethodCloseStep bc msb closes c2 cur).1 = c2
            ∧ ¬(bc ≤ msb ∧ 0 < closes)) := by
  simp only [tsMethodCloseStep]
  split
  · next m0 =>
    split
    · next hcond =>
      refine ⟨rfl, Or.inr ⟨m0, rfl, rfl, rfl⟩, ?_⟩
      intro m hm
      cases hm
    · next hcond =>
      refine ⟨rfl, Or.inl rfl, ?_⟩
      intro m hm
      exact ⟨hm, rfl, by simpa using hcond⟩
  · refine ⟨rfl, Or.inl rfl, ?_⟩
    intro m hm
    cases hm

/-- Invariant facts of the open TypeScript class's methods before line `i`. -/
def tsMethodsOK (i : Nat) (c : ClassInfo) : Prop :=
  (∀ m ∈ c.methods, c.startLine ≤ m.startLine ∧ m.startLine ≤ m.endLine ∧ m.endLine < i)
    ∧ c.methods.Pairwise (fun m1 m2 => m1.endLine < m2.startLine)

/-- Loop invariant of the TypeScript parser before processing line `i`. -/
def TsInv (i : Nat) (s : TsState) : Prop :=
  (∀ c ∈ s.classes, ClassRangesOK c)
    ∧ (s.currentClass = none → s.currentMethod = none)
    ∧ (∀ c, s.currentClass = some c →
        s.classStartBrace = 0 ∧ c.startLine < i ∧ tsMethodsOK i c
          ∧ (∀ m, s.currentMethod = some m →
              s.methodStartBrace = 1 ∧ 1 ≤ s.braceCount
                ∧ c.startLine ≤ m.startLine ∧ m.startLine ≤ m.endLine ∧ m.endLine < i
                ∧ ∀ m' ∈ c.methods, m'.endLine < m.startLine))

/-- The tail of a TypeScript parser step preserves the invariant, given the
facts about the open class (which may have been opened on this very line). -/
theorem tsStepTail_inv (i : Nat) (line : String) (s1 : TsState) (c0 : ClassInfo)
    (hcsb : s1.classStartBrace = 0)
    (hclasses : ∀ c ∈ s1.classes, ClassRangesOK c)
    (hsi : c0.startLine ≤ i)
    (hmb : ∀ m' ∈ c0.methods,
      c0.startLine ≤ m'.startLine ∧ m'.startLine ≤ m'.endLine ∧ m'.endLine < i)
    (hpw : c0.methods.Pairwise (fun m1 m2 => m1.endLine < m2.startLine))
    (hcur : ∀ x, s1.currentMethod = some x →
      s1.methodStartBrace = 1 ∧ 1 ≤ s1.braceCount ∧ c0.startLine ≤ x.startLine
        ∧ x.startLine ≤ x.endLine ∧ x.endLine < i
        ∧ ∀ m' ∈ c0.methods, m'.endLine < x.startLine) :
    TsInv (i + 1) (tsStepTail i line s1 c0) := by
  simp only [tsStepTail]
  rw [hcsb]
  set closes := countChar '}' line with hcloses
  set bc : Int := s1.braceCount + (countChar '{' line : Int) - (closes : Int)
    with hbcdef
  obtain ⟨o1, o2, o3, o4⟩ :=
    tsMethodOpenStep_spec i (jsTrim line) bc s1.methodStartBrace c0 s1.currentMethod
      c0.startLine rfl hsi hmb hpw
      (fun x hx => ⟨(hcur x hx).1, (hcur x hx).2.2.1, (hcur x hx).2.2.2.1,
        (hcur x hx).2.2.2.2.1, (hcur x hx).2.2.2.2.2⟩)
  set step1 := tsMethodOpenStep i (jsTrim line) bc 0 s1.methodStartBrace c0
    s1.currentMethod with hstep1
  obtain ⟨b1, b2, b3⟩ := tsBodyStep_spec i line bc step1.2.2 step1.1 step1.2.1
  set step2 := tsBodyStep i line bc step1.2.2 step1.1 step1.2.1 with hstep2
  obtain ⟨k1, k2, k3⟩ := tsMethodCloseStep_spec bc step1.2.2 closes step2.1 step2.2
  set step3 := tsMethodCloseStep bc step1.2.2 closes step2.1 step2.2 with hstep3
  have hstart3 : step3.1.startLine = c0.startLine := k1.trans (b1.trans o1)
  have hM : ∀ m' ∈ step3.1.methods,
      c0.startLine ≤ m'.startLine ∧ m'.startLine ≤ m'.endLine ∧ m'.endLine ≤ i := by
    rcases k2 with hk | ⟨mp, hmp, hk, hk2⟩
    · rw [hk, b2]
      intro m' hm'
      obtain ⟨q1, q2, q3⟩ := o2 m' hm'
      exact ⟨q1, q2, le_of_lt q3⟩
    · rw [hk, b2]
      obtain ⟨m0, hm0, hms, hme⟩ := b3 mp hmp
      obtain ⟨q0, q1, q2, q3, q4, q5⟩ := o4 m0 hm0
      intro m' hm'
      rcases List.mem_append.mp hm' with h | h
      · obtain ⟨r1, r2, r3⟩ := o2 m' h
        exact ⟨r1, r2, le_of_lt r3⟩
      · rw [List.mem_singleton.mp h]
        refine ⟨by omega, ?_, ?_⟩
        · rcases hme with he | he <;> omega
        · rcases hme with he | he <;> omega
  have hP : step3.1.methods.Pairwise (fun m1 m2 => m1.endLine < m2.startLine) := by
    rcases k2 with hk | ⟨mp, hmp, hk, hk2⟩
    · rw [hk, b2]; exact o3
    · rw [hk, b2]
      obtain ⟨m0, hm0, hms, hme⟩ := b3 mp hmp
      obtain ⟨q0, q1, q2, q3, q4, q5⟩ := o4 m0 hm0
      rw [List.pairwise_append]
      refine ⟨o3, List.pairwise_singleton .., ?_⟩
      intro a ha b hb
      rw [List.mem_singleton.mp hb, hms]
      exact q4 a ha
  have hOpenM : ∀ m, step3.2 = some m →
      step1.2.2 = 1 ∧ 1 ≤ bc ∧ c0.startLine ≤ m.startLine
        ∧ m.startLine ≤ m.endLine ∧ m.endLine ≤ i
        ∧ ∀ m' ∈ step3.1.methods, m'.endLine < m.startLine := by
    intro m hm
    obtain ⟨hm2, hk31, hnot⟩ := k3 m hm
    obtain ⟨m0, hm0, hms, hme⟩ := b3 m hm2
    obtain ⟨q0, q1, q2, q3, q4, q5⟩ := o4 m0 hm0
    rw [q0] at hnot
    have hbc1 : 1 ≤ bc := by
      rcases q5 with ⟨hc, _⟩ | ⟨_, hb1⟩
      · have h1b : 1 ≤ s1.braceCount := (hcur m0 hc).2.1
        omega
      · omega
    refine ⟨q0, hbc1, by omega, ?_, ?_, ?_⟩
    · rcases hme with he | he <;> omega
    · rcases hme with he | he <;> omega
    · rw [hk31, b2]
      intro m' hm'
      rw [hms]
      exact q4 m' hm'
  by_cases hbz : bc = 0
  · rw [if_pos hbz]
    have hNone : step3.2 = none := by
      cases hs32 : step3.2 with
      | none => rfl
      | some m =>
        exfalso
        obtain ⟨hm2, hk31, hnot⟩ := k3 m hs32
        obtain ⟨m0, hm0, hms, hme⟩ := b3 m hm2
        obtain ⟨q0, q1, q2, q3, q4, q5⟩ := o4 m0 hm0
        rw [q0] at hnot
        rcases q5 with ⟨hc, _⟩ | ⟨_, hb1⟩
        · have h1b : 1 ≤ s1.braceCount := (hcur m0 hc).2.1
          omega
        · omega
    refine ⟨?_, fun _ => hNone, ?_⟩
    · intro c hc
      rcases List.mem_append.mp hc with h | h
      · exact hclasses c h
      · rw [List.mem_singleton.mp h]
        refine ⟨hstart3.trans_le hsi, ?_, hP⟩
        intro m hm
        obtain ⟨r1, r2, r3⟩ := hM m hm
        exact ⟨hstart3.trans_le r1, r2, r3⟩
    · intro c hc
      cases hc
  · rw [if_neg hbz]
    refine ⟨hclasses, ?_, ?_⟩
    · intro h
      cases h
    · intro c hc
      simp only [Option.some_inj] at hc
      subst hc
      refine ⟨rfl, ?_, ⟨?_, hP⟩, ?_⟩
      · rw [hstart3]; omega
      · intro m hm
        obtain ⟨r1, r2, r3⟩ := hM m hm
        exact ⟨hstart3.trans_le r1, r2, by omega⟩
      · intro m hm
        obtain ⟨w0, w1, w2, w3, w4, w5⟩ := hOpenM m hm
        exact ⟨w0, w1, hstart3.trans_le w2, w3, by omega, w5⟩

/-- When no class is open, a step only rewrites the brace count and the
invariant is preserved trivially. -/
theorem tsNoClass_inv (i : Nat) (b : Int) (s : TsState) (h : TsInv i s)
    (heq : s.currentClass = none) :
    TsInv (i + 1) { s with currentClass := none, braceCount := b } := by
  obtain ⟨hclasses, hnone, _⟩ := h
  refine ⟨hclasses, fun _ => hnone heq, ?_⟩
  intro c hc
  cases hc

/-- When a class carried over from a previous line is open, the step tail
preserves the invariant. -/
theorem tsOpenClass_inv (i : Nat) (line : String) (s : TsState) (c0 : ClassInfo)
    (h : TsInv i s) (heq : s.currentClass = some c0) :
    TsInv (i + 1) (tsStepTail i line s c0) := by
  obtain ⟨hclasses, hnone, hopen⟩ := h
  obtain ⟨hcsb, hlt, ⟨hmb, hpw⟩, hm⟩ := hopen c0 heq
  exact tsStepTail_inv i line s c0 hcsb hclasses (le_of_lt hlt) hmb hpw hm

/-- A step that does not open a class dispatches on the carried state. -/
theorem tsKeep_inv (i : Nat) (line : String) (s : TsState) (h : TsInv i s) :
    TsInv (i + 1) (match s.currentClass with
      | none => { s with braceCount := s.braceCount
          + (countChar '{' line : Int)
          - (countChar '}' line : Int) }
      | some c0 => tsStepTail i line s c0) := by
  rcases heq : s.currentClass with _ | c0
  · exact tsNoClass_inv i _ s h heq
  · exact tsOpenClass_inv i line s c0 h heq

/-- One TypeScript parser step preserves the invariant. -/
theorem tsStep_inv {i : Nat} {line : String} {s : TsState} (h : TsInv i s) :
    TsInv (i + 1) (tsStep i line s) := by
  rcases hm2 : matchTsClass (jsTrim line) with _ | cname
  · have he : tsStep i line s = (match s.currentClass with
      | none => { s with braceCount := s.braceCount
          + (countChar '{' line : Int)
          - (countChar '}' line : Int) }
      | some c0 => tsStepTail i line s c0) := by
      simp only [tsStep, hm2]
    rw [he]
    exact tsKeep_inv i line s h
  · by_cases hb : s.braceCount = 0
    · have he : tsStep i line s = tsStepTail i line
        { s with currentClass := some (⟨cname, i, i, [], []⟩ : ClassInfo)
                 classStartBrace := s.braceCount } (⟨cname, i, i, [], []⟩ : ClassInfo) := by
        simp only [tsStep, hm2, if_pos hb]
      have hcm : s.currentMethod = none := by
        cases hcmeq : s.currentMethod with
        | none => rfl
        | some m =>
          rcases hcceq : s.currentClass with _ | c
          · have h2 := h.2.1 hcceq
            rw [hcmeq] at h2
            cases h2
          · have h2 := ((h.2.2 c hcceq).2.2.2 m hcmeq).2.1
            omega
      rw [he]
      refine tsStepTail_inv i line _ _ hb h.1 le_rfl ?_ ?_ ?_
      · intro m' hm'
        exact absurd hm' (List.not_mem_nil m')
      · exact List.Pairwise.nil
      · intro x hx
        have hx2 : s.currentMethod = some x := hx
        rw [hcm] at hx2
        cases hx2
    · have he : tsStep i line s = (match s.currentClass with
        | none => { s with braceCount := s.braceCount
            + (countChar '{' line : Int)
          - (countChar '}' line : Int) }
        | some c0 => tsStepTail i line s c0) := by
        simp only [tsStep, hm2, if_neg hb]
      rw [he]
      exact tsKeep_inv i line s h

/-- The invariant transports along the whole TypeScript run. -/
theorem tsRun_inv : ∀ (ls : List String) (i : Nat) (s : TsState),
    TsInv i s → TsInv (i + ls.length) (tsRun i ls s) := by
  intro ls
  induction ls with
  | nil => intro i s h; simpa [tsRun] using h
  | cons l ls ih =>
    intro i s h
    have heq : i + (l :: ls).length = (i + 1) + ls.length := by
      simp [List.length_cons]; omega
    rw [heq]
    simp only [tsRun]
    exact ih (i + 1) (tsStep i l s) (tsStep_inv h)

/-- Every record emitted by the TypeScript parser has well-formed ranges. -/
theorem parseTypeScriptClasses_ok (lines : List String) :
    ∀ c ∈ parseTypeScriptClasses lines, ClassRangesOK c := by
  have h0 : TsInv 0 ⟨[], none, none, 0, 0, 0⟩ := by
    refine ⟨by simp, fun _ => rfl, ?_⟩
    intro c hc
    cases hc
  have h := tsRun_inv lines 0 _ h0
  exact fun c hc => h.1 c hc

/-- C8: for every input text and in both syntax modes, every class record
produced by `parseClasses` satisfies `startLine <= endLine`, and its methods'
line ranges lie within the class's range and are pairwise disjoint. -/
theorem claim_C8_range_invariants (text languageId : String) :
    ∀ c ∈ parseClasses text languageId,
      c.startLine ≤ c.endLine
        ∧ (∀ m ∈ c.methods,
            c.startLine ≤ m.startLine ∧ m.startLine ≤ m.endLine ∧ m.endLine ≤ c.endLine)
        ∧ (∀ m1 ∈ c.methods, ∀ m2 ∈ c.methods, m1 ≠ m2 →
            m1.endLine < m2.startLine ∨ m2.endLine < m1.startLine) := by
  intro c hc
  have hok : ClassRangesOK c := by
    simp only [parseClasses] at hc
    split at hc
    · exact parsePythonClasses_ok _ c hc
    · split at hc
      · exact parseTypeScriptClasses_ok _ c hc
      · cases hc
  obtain ⟨h1, h2, h3⟩ := hok
  refine ⟨h1, h2, ?_⟩
  have hsymm : Symmetric (fun m1 m2 : MethodInfo =>
      m1.endLine < m2.startLine ∨ m2.endLine < m1.startLine) := by
    intro a b hab
    rcases hab with h | h
    · exact Or.inr h
    · exact Or.inl h
  have h3' : c.methods.Pairwise (fun m1 m2 =>
      m1.endLine < m2.startLine ∨ m2.endLine < m1.startLine) :=
    h3.imp (fun h => Or.inl h)
  intro m1 hm1 m2 hm2 hne
  exact h3'.forall hsymm hm1 hm2 hne

/-- C8 witness: the range invariants instantiated on a concrete two-method
Python class. -/
theorem claim_C8_range_invariants_witness :
    ((⟨"A", 0, 4,
        [⟨"f", 1, 2, [], []⟩, ⟨"g", 3, 4, [], []⟩], []⟩ : ClassInfo)
          ∈ parseClasses
            "class A:\n    def f(self):\n        x = 1\n    def g(self):\n        y = 2"
            "python")
      ∧ ((⟨"f", 1, 2, [], []⟩ : MethodInfo).endLine
            < (⟨"g", 3, 4, [], []⟩ : MethodInfo).startLine
          ∨ (⟨"g", 3, 4, [], []⟩ : MethodInfo).endLine
            < (⟨"f", 1, 2, [], []⟩ : MethodInfo).startLine) := by
  refine ⟨by decide, ?_⟩
  exact ((claim_C8_range_invariants
      "class A:\n    def f(self):\n        x = 1\n    def g(self):\n        y = 2"
      "python"
      (⟨"A", 0, 4, [⟨"f", 1, 2, [], []⟩, ⟨"g", 3, 4, [], []⟩], []⟩ : ClassInfo)
      (by decide)).2.2
    (⟨"f", 1, 2, [], []⟩ : MethodInfo) (by decide)
    (⟨"g", 3, 4, [], []⟩ : MethodInfo) (by decide)
    (by decide))

end SemgrepOffline

